import Mathlib

/-!
# Verification of the hyperlink-extraction library

Shallow embedding of the core of the repository (src/main.py, src/config.py,
src/errors.py): the `Link` URL-reference class, the `LinkExtractor` class with
its anchor-tag recognition pattern `HYPERLINK_PATTERN`, and the parts of
CPython's `urllib.parse` library (`urlparse`, `urlsplit`, `urljoin`,
`urlunparse`, `urlunsplit`) that the code calls.

Python strings are modelled as `List Char`.  Python code that can raise is
modelled in `Except PyErr`.  Design notes:

* `isPySpace` is the exact whitespace set shared (verified against CPython
  3.11/3.12) by `str.strip()`, `str.isspace()` and the regex class `\s`.
* The regex `HYPERLINK_PATTERN` is hand-compiled into a deterministic
  backtracking matcher (`tryMatch`/`findAll`) whose candidate order reproduces
  the leftmost-match and quantifier-priority semantics of CPython `re`
  (greedy `\s+`, greedy optional group with a lazy star inside, greedy value
  class with a backreference close, lazy tail).  See the comments on each
  function for the correspondence argument.
* `findAll` uses a fuel argument (`html.length + 1` at the call site) so that
  the definition is structural and reduces definitionally; every match
  consumes at least one character, so this fuel is always sufficient.
-/

/-- Characters of a string literal, as the `List Char` model of Python `str`. -/
def chars (s : String) : List Char := s.data

/-- The Python whitespace set: exactly the characters `c` with `c.isspace()`
true, which (verified on CPython) is also exactly the character class `\s` of
the `re` module and the set stripped by `str.strip()`. -/
def isPySpace (c : Char) : Bool :=
  c = '\x09' ∨ c = '\x0A' ∨ c = '\x0B' ∨ c = '\x0C' ∨ c = '\x0D' ∨
  c = '\x1C' ∨ c = '\x1D' ∨ c = '\x1E' ∨ c = '\x1F' ∨ c = '\x20' ∨
  c = '\u0085' ∨ c = ' ' ∨ c = ' ' ∨ c = ' ' ∨ c = ' ' ∨
  c = ' ' ∨ c = ' ' ∨ c = ' ' ∨ c = ' ' ∨ c = ' ' ∨
  c = ' ' ∨ c = ' ' ∨ c = ' ' ∨ c = ' ' ∨ c = ' ' ∨
  c = ' ' ∨ c = ' ' ∨ c = ' ' ∨ c = '　'

/-- Python `str.lstrip()` (no argument: strips whitespace). -/
def pyLstrip (l : List Char) : List Char := l.dropWhile isPySpace

/-- Python `str.rstrip()` (no argument: strips whitespace). -/
def pyRstrip (l : List Char) : List Char := (l.reverse.dropWhile isPySpace).reverse

/-- Python `str.strip()` (no argument: strips whitespace at both ends). -/
def pyStrip (l : List Char) : List Char := pyRstrip (pyLstrip l)

/-- Python `str.rstrip("/")` as used by `LinkExtractor.__init__`. -/
def pyRstripSlash (l : List Char) : List Char :=
  (l.reverse.dropWhile (fun c => c = '/')).reverse

/-- ASCII lower-casing of one character; agrees with Python `str.lower()` on
ASCII, which is all the code ever lower-cases after its charset checks. -/
def lowerAscii (c : Char) : Char :=
  if 'A' ≤ c ∧ c ≤ 'Z' then Char.ofNat (c.toNat + 32) else c

/-- The two quote characters of the `(?P<border>["'])` group. -/
def isQuote (c : Char) : Bool := c = '"' ∨ c = '\''

/-! ## The anchor-tag pattern

`HYPERLINK_PATTERN` (src/config.py, the uncommented final version), compiled
with `re.IGNORECASE | re.DOTALL`:

  `<a\s+(?:[^>]*?\s)?\bhref\s*=\s*(?P<border>["'])(?P<url>[^"']*)(?P=border)[^>]*?>`

The hand-compilation below follows the backtracking order of CPython `re`:

* After `<a` the engine matches `\s+` greedily (maximal run, length `k`), then
  the optional group `(?:[^>]*?\s)?` (presence preferred, lazy star inside),
  then `\bhref`.  Unfolding that order, the candidate start positions for
  `href` are: each position directly after a whitespace character lying after
  the maximal run, in left-to-right order, stopping once a `>` is passed
  (the group may not contain `>`); and finally the position directly after the
  maximal whitespace run (group absent).  Shorter choices of `\s+` only repeat
  candidates already tried, so they are not enumerated.
* `\bhref` always has its word boundary satisfied (the preceding character is
  whitespace in every candidate), so the boundary needs no separate check.
* `\s*=\s*(?P<border>["'])` is deterministic: whitespace runs are maximal and
  backtracking them cannot help because `=` and the quotes are not whitespace.
* `(?P<url>[^"']*)(?P=border)`: the greedy class takes the maximal run of
  non-quote characters; every shorter choice is followed by a non-quote
  character, which can never equal the border, so the maximal run is the only
  candidate.
* `[^>]*?>` is lazy: the match extends exactly to the first later `>`,
  and fails if there is none.
-/

/-- Match a literal (given lower-case) case-insensitively, returning the rest. -/
def eatCI : List Char → List Char → Option (List Char)
  | [], s => some s
  | _ :: _, [] => none
  | c :: cs, d :: ds => if lowerAscii d = c then eatCI cs ds else none

/-- `\s*`: skip a maximal whitespace run. -/
def eatWs (s : List Char) : List Char := s.dropWhile isPySpace

/-- A literal character. -/
def eatChar (c : Char) : List Char → Option (List Char)
  | d :: rest => if d = c then some rest else none
  | [] => none

/-- `(?P<border>["'])`: one of the two quote characters, captured. -/
def eatBorder : List Char → Option (Char × List Char)
  | d :: rest => if isQuote d then some (d, rest) else none
  | [] => none

/-- `(?P<url>[^"']*)(?P=border)`: the maximal run of non-quote characters,
closed by the same quote that opened the value. -/
def eatValue (q : Char) (s : List Char) : Option (List Char × List Char) :=
  match s.dropWhile (fun c => ¬ isQuote c) with
  | c :: rest =>
    if c = q then some (s.takeWhile (fun c => ¬ isQuote c), rest) else none
  | [] => none

/-- `[^>]*?>`: everything (lazily) up to and including the first `>`. -/
def eatTail (s : List Char) : Option (List Char) :=
  match s.dropWhile (fun c => c ≠ '>') with
  | _ :: rest => some rest
  | [] => none

/-- Attempt the `href\s*=\s*(["'])([^"']*)\1[^>]*?>` part of the pattern at the
start of `s`; on success return the captured `url` group and the input
remaining after the whole match. -/
def matchHref (s : List Char) : Option (List Char × List Char) := do
  let s1 ← eatCI (chars "href") s
  let s3 ← eatChar '=' (eatWs s1)
  let (q, s5) ← eatBorder (eatWs s3)
  let (url, s7) ← eatValue q s5
  let s9 ← eatTail s7
  return (url, s9)

/-- Enumerate, in engine order, the group-present candidates for `href`: after
each whitespace character, stopping at a `>` (which the optional group
`(?:[^>]*?\s)?` may not contain). -/
def presentCands : List Char → Option (List Char × List Char)
  | [] => none
  | c :: rest =>
    if c = '>' then none
    else if isPySpace c then
      match matchHref rest with
      | some r => some r
      | none => presentCands rest
    else presentCands rest

/-- Attempt the whole pattern at the start of `s`. -/
def tryMatch : List Char → Option (List Char × List Char)
  | [] => none
  | [_] => none
  | a :: c :: t =>
    if a = '<' ∧ lowerAscii c = 'a' then
      let k := (t.takeWhile isPySpace).length
      if k = 0 then none
      else
        let t' := t.drop k
        match presentCands t' with
        | some r => some r
        | none => matchHref t'
    else none

/-- `re.finditer`: scan left to right, taking the leftmost matches,
non-overlapping (continue after the end of each match).  The fuel argument
makes the recursion structural; `s.length + 1` is always enough fuel because
every match ends strictly after its start. -/
def findAll : Nat → List Char → List (List Char)
  | 0, _ => []
  | _ + 1, [] => []
  | fuel + 1, c :: rest =>
    match tryMatch (c :: rest) with
    | some (url, after) => url :: findAll fuel after
    | none => findAll fuel rest

/-! ## CPython `urllib.parse`

Embedding of `urlsplit`, `urlparse`, `urlunsplit`, `urlunparse` and `urljoin`
as the code calls them (always with `allow_fragments=True`), translated from
the CPython 3.11/3.12 source.  Two checks of `urlsplit` are special-cased:

* the "Invalid IPv6 URL" `ValueError` for an authority containing an
  unmatched `[` or `]` is translated exactly;
* an authority containing a matched `[`...`]` pair is further validated by
  CPython against the `ipaddress` module (`_check_bracketed_host`), raising
  `ValueError` unless it is a valid IPv6/IPvFuture literal; that validation is
  not reproduced here, and the embedding conservatively reports an error for
  every bracketed authority.  All claims below are settled on bracket-free
  inputs, except for counterexamples whose input has an unmatched bracket,
  where the exact first check fires.
* `_checknetloc` (an NFKC-confusable check that can reject authorities
  containing certain non-ASCII characters) is not modelled; it never fires on
  ASCII input, and the universally quantified theorems below carry an
  ASCII-input hypothesis where the difference could matter.
-/

/-- The exceptions the embedded code can raise. -/
inductive PyErr where
  /-- `ValueError(msg)` raised by `urllib.parse`. -/
  | valueError (msg : String)
  /-- `EmptyValueForMethodError(field)` from src/errors.py. -/
  | emptyValueForMethod (field : String)
  /-- `RequestException` from the `requests` library / its re-raise. -/
  | requestException
deriving DecidableEq

/-- Result of `urlsplit`. -/
structure SplitResult where
  scheme : List Char
  netloc : List Char
  path : List Char
  query : List Char
  fragment : List Char
deriving DecidableEq

/-- Result of `urlparse`. -/
structure ParseResult where
  scheme : List Char
  netloc : List Char
  path : List Char
  params : List Char
  query : List Char
  fragment : List Char
deriving DecidableEq

/-- `_WHATWG_C0_CONTROL_OR_SPACE`: code points 0x00-0x20. -/
def isC0OrSpace (c : Char) : Bool := c.toNat ≤ 0x20

/-- Removal of `_UNSAFE_URL_BYTES_TO_REMOVE` = tab, CR, LF. -/
def removeUnsafe (l : List Char) : List Char :=
  l.filter (fun c => ¬ (c = '\t' ∨ c = '\r' ∨ c = '\n'))

/-- `scheme_chars` = ASCII letters, digits, `+`, `-`, `.`. -/
def isSchemeChar (c : Char) : Bool :=
  ('a' ≤ c ∧ c ≤ 'z') ∨ ('A' ≤ c ∧ c ≤ 'Z') ∨ ('0' ≤ c ∧ c ≤ '9') ∨
    c = '+' ∨ c = '-' ∨ c = '.'

/-- ASCII letter test, as `url[0].isascii() and url[0].isalpha()`. -/
def isAsciiAlpha (c : Char) : Bool := ('a' ≤ c ∧ c ≤ 'z') ∨ ('A' ≤ c ∧ c ≤ 'Z')

/-- The scheme-detection step of `urlsplit`: `i = url.find(':')`, accept when
`i > 0`, `url[0]` is an ASCII letter and all of `url[:i]` are scheme
characters; on acceptance return the lower-cased scheme and `url[i+1:]`,
otherwise the default scheme and the url unchanged. -/
def splitScheme (url2 ds2 : List Char) : List Char × List Char :=
  let pre := url2.takeWhile (fun c => c ≠ ':')
  let post := url2.drop pre.length
  let hasScheme : Bool := !post.isEmpty && !pre.isEmpty &&
    (match url2 with | c :: _ => isAsciiAlpha c | [] => false) &&
    pre.all isSchemeChar
  if hasScheme then (pre.map lowerAscii, post.tail) else (ds2, url2)

/-- The netloc step of `urlsplit`: when the url starts with `//`, netloc is
everything after it up to the first `/`, `?` or `#` (`_splitnetloc`). -/
def splitNetloc (url3 : List Char) : List Char × List Char :=
  if url3.take 2 = chars "//" then
    let netloc := (url3.drop 2).takeWhile (fun c => ¬ (c = '/' ∨ c = '?' ∨ c = '#'))
    (netloc, (url3.drop 2).drop netloc.length)
  else ([], url3)

/-- CPython `urlsplit(url, scheme, allow_fragments=True)`. -/
def urlsplit (url0 : List Char) (defaultScheme : List Char) :
    Except PyErr SplitResult :=
  -- url = url.lstrip(C0-or-space); scheme = scheme.strip(C0-or-space)
  let url1 := url0.dropWhile isC0OrSpace
  let ds1 := ((defaultScheme.dropWhile isC0OrSpace).reverse.dropWhile isC0OrSpace).reverse
  -- removal of unsafe bytes from both
  let url2 := removeUnsafe url1
  let ds2 := removeUnsafe ds1
  let sp := splitScheme url2 ds2
  let nl := splitNetloc sp.2
  let netloc := nl.1
  if ('[' ∈ netloc ∧ ']' ∉ netloc) ∨ (']' ∈ netloc ∧ '[' ∉ netloc) then
    .error (.valueError "Invalid IPv6 URL")
  else if '[' ∈ netloc then
    -- conservative stand-in for _check_bracketed_host (see section comment)
    .error (.valueError "bracketed host")
  else
    -- fragment split (first '#'), then query split (first '?')
    let url5 := nl.2.takeWhile (fun c => c ≠ '#')
    let fragment := (nl.2.drop url5.length).tail
    let path := url5.takeWhile (fun c => c ≠ '?')
    let query := (url5.drop path.length).tail
    .ok ⟨sp.1, netloc, path, query, fragment⟩

/-- `uses_params` (CPython). -/
def uses_params : List (List Char) :=
  [chars "", chars "ftp", chars "hdl", chars "prospero", chars "http",
   chars "imap", chars "https", chars "shttp", chars "rtsp", chars "rtsps",
   chars "rtspu", chars "sip", chars "sips", chars "mms", chars "sftp",
   chars "tel"]

/-- `uses_relative` (CPython). -/
def uses_relative : List (List Char) :=
  [chars "", chars "ftp", chars "http", chars "gopher", chars "nntp",
   chars "imap", chars "wais", chars "file", chars "https", chars "shttp",
   chars "mms", chars "prospero", chars "rtsp", chars "rtsps", chars "rtspu",
   chars "sftp", chars "svn", chars "svn+ssh", chars "ws", chars "wss"]

/-- `uses_netloc` (CPython). -/
def uses_netloc : List (List Char) :=
  [chars "", chars "ftp", chars "http", chars "gopher", chars "nntp",
   chars "telnet", chars "imap", chars "wais", chars "file", chars "mms",
   chars "https", chars "shttp", chars "snews", chars "prospero",
   chars "rtsp", chars "rtsps", chars "rtspu", chars "rsync", chars "svn",
   chars "svn+ssh", chars "sftp", chars "nfs", chars "git", chars "git+ssh",
   chars "ws", chars "wss"]

/-- `_splitparams(url)`: split `;params` off the last path segment. -/
def splitparams (url : List Char) : List Char × List Char :=
  if '/' ∈ url then
    -- i = url.find(';', url.rfind('/'))
    let revAfter := url.reverse.takeWhile (fun c => c ≠ '/')
    let tailSeg := revAfter.reverse        -- characters after the last '/'
    let a := tailSeg.takeWhile (fun c => c ≠ ';')
    let b := tailSeg.drop a.length
    match b with
    | [] => (url, [])
    | _ :: rest => (url.take (url.length - tailSeg.length) ++ a, rest)
  else
    let a := url.takeWhile (fun c => c ≠ ';')
    let b := url.drop a.length
    match b with
    | [] => (url, [])       -- unreachable: caller guards on ';' ∈ url
    | _ :: rest => (a, rest)

/-- CPython `urlparse(url, scheme, allow_fragments=True)`. -/
def urlparse (url : List Char) (defaultScheme : List Char) :
    Except PyErr ParseResult := do
  let r ← urlsplit url defaultScheme
  let (path, params) :=
    if r.scheme ∈ uses_params ∧ ';' ∈ r.path then splitparams r.path
    else (r.path, [])
  return ⟨r.scheme, r.netloc, path, params, r.query, r.fragment⟩

/-- CPython `urlunsplit`. -/
def urlunsplit (r : SplitResult) : List Char :=
  let url := r.path
  let url := if r.netloc ≠ [] ∨
      (r.scheme ≠ [] ∧ r.scheme ∈ uses_netloc ∧ url.take 2 ≠ chars "//") then
      let url := if url ≠ [] ∧ url.take 1 ≠ chars "/" then '/' :: url else url
      '/' :: '/' :: (r.netloc ++ url)
    else url
  let url := if r.scheme ≠ [] then r.scheme ++ ':' :: url else url
  let url := if r.query ≠ [] then url ++ '?' :: r.query else url
  if r.fragment ≠ [] then url ++ '#' :: r.fragment else url

/-- CPython `urlunparse`. -/
def urlunparse (r : ParseResult) : List Char :=
  let path := if r.params ≠ [] then r.path ++ ';' :: r.params else r.path
  urlunsplit ⟨r.scheme, r.netloc, path, r.query, r.fragment⟩

/-- Python `str.split(sep)` for a one-character separator. -/
def pySplit (sep : Char) : List Char → List (List Char)
  | [] => [[]]
  | c :: cs =>
    if c = sep then [] :: pySplit sep cs
    else
      match pySplit sep cs with
      | [] => [[c]]          -- unreachable: pySplit never returns []
      | p :: ps => (c :: p) :: ps

/-- Python `'/'.join`. -/
def joinSlash : List (List Char) → List Char
  | [] => []
  | [x] => x
  | x :: xs => x ++ '/' :: joinSlash xs

/-- The slice assignment `segments[1:-1] = filter(None, segments[1:-1])`:
keep the first and last elements, drop empty ones in between. -/
def filtKeepLast : List (List Char) → List (List Char)
  | [] => []
  | [x] => [x]
  | x :: xs => if x = [] then filtKeepLast xs else x :: filtKeepLast xs

/-- See `filtKeepLast`. -/
def filtKeepFirstLast : List (List Char) → List (List Char)
  | [] => []
  | a :: rest => a :: filtKeepLast rest

/-- CPython `urljoin(base, url)`. -/
def urljoin (base url : List Char) : Except PyErr (List Char) :=
  if base = [] then .ok url
  else if url = [] then .ok base
  else do
    let b ← urlparse base []
    let r ← urlparse url b.scheme
    if r.scheme ≠ b.scheme ∨ r.scheme ∉ uses_relative then
      return url
    else if r.scheme ∈ uses_netloc ∧ r.netloc ≠ [] then
      return urlunparse ⟨r.scheme, r.netloc, r.path, r.params, r.query, r.fragment⟩
    else
      let netloc := if r.scheme ∈ uses_netloc then b.netloc else r.netloc
      if r.path = [] ∧ r.params = [] then
        let query := if r.query = [] then b.query else r.query
        return urlunparse ⟨r.scheme, netloc, b.path, b.params, query, r.fragment⟩
      else
        let base_parts := pySplit '/' b.path
        let base_parts :=
          if base_parts.getLastD [] ≠ [] then base_parts.dropLast else base_parts
        let segments :=
          if r.path.take 1 = chars "/" then pySplit '/' r.path
          else filtKeepFirstLast (base_parts ++ pySplit '/' r.path)
        let resolved := segments.foldl (fun acc seg =>
            if seg = chars ".." then acc.dropLast
            else if seg = chars "." then acc
            else acc ++ [seg]) []
        let resolved :=
          if segments.getLastD [] = chars "." ∨ segments.getLastD [] = chars ".."
          then resolved ++ [[]] else resolved
        let newpath := joinSlash resolved
        let newpath := if newpath = [] then chars "/" else newpath
        return urlunparse ⟨r.scheme, netloc, newpath, r.params, r.query, r.fragment⟩

/-! ## The `Link` class (src/main.py)

Derived attributes are `@property`/`@cached_property` in the source; the
object is immutable, so memoization is behaviourally invisible and each
cached property is embedded as a pure function of the constructor data.
`urlparse` can raise, so every derived attribute lives in `Except PyErr`.
-/

/-- The stored state of a `Link`: `_url` (stripped) and `_base_url`
(stripped, or `none` when the argument was `None` or empty). -/
structure Link where
  url : List Char
  base_url : Option (List Char)
deriving DecidableEq

/-- `Link.__init__`: `self._url = url.strip()`;
`self._base_url = base_url.strip() if base_url else None`. -/
def Link.make (url : List Char) (base_url : Option (List Char)) : Link :=
  ⟨pyStrip url,
   match base_url with
   | some b => if b ≠ [] then some (pyStrip b) else none
   | none => none⟩

/-- `Link.is_absolute`: `bool(urlparse(self.url).scheme)`. -/
def Link.is_absolute (l : Link) : Except PyErr Bool := do
  let p ← urlparse l.url []
  return !p.scheme.isEmpty

/-- `Link.absolute`: `self.url` if absolute, else `None` without a truthy
base, else `urljoin(self.base_url, self.url)`. -/
def Link.absolute (l : Link) : Except PyErr (Option (List Char)) := do
  if (← l.is_absolute) then return some l.url
  else
    match l.base_url with
    | none => return none
    | some b =>
      if b = [] then return none
      else return some (← urljoin b l.url)

/-- The argument of `Link._parsed`: `self.absolute if self.absolute is not
None else self.url`. -/
def Link.parsedTarget (l : Link) : Except PyErr (List Char) := do
  match (← l.absolute) with
  | some s => return s
  | none => return l.url

/-- `Link._parsed`: `urlparse` of `parsedTarget`. -/
def Link.parsed (l : Link) : Except PyErr ParseResult := do
  urlparse (← l.parsedTarget) []

/-- `Link.scheme`: `self._parsed.scheme` when `self.absolute` is truthy,
else `None`. -/
def Link.scheme (l : Link) : Except PyErr (Option (List Char)) := do
  match (← l.absolute) with
  | some s =>
    if s ≠ [] then return some (← l.parsed).scheme
    else return none
  | none => return none

/-- `Link.domain`: lower-cased `self._parsed.netloc` when `self.absolute` is
truthy and the netloc is truthy, else `None`.  (`str.lower()` is modelled
per-character ASCII-only, which agrees with CPython on ASCII input.) -/
def Link.domain (l : Link) : Except PyErr (Option (List Char)) := do
  match (← l.absolute) with
  | some s =>
    if s ≠ [] then
      let d := (← l.parsed).netloc
      if d ≠ [] then return some (d.map lowerAscii) else return none
    else return none
  | none => return none

/-- `Link.path`: `urlparse(self.absolute).path or None` when `self.absolute`
is truthy, else `None`. -/
def Link.path (l : Link) : Except PyErr (Option (List Char)) := do
  match (← l.absolute) with
  | some s =>
    if s ≠ [] then
      let p := (← urlparse s []).path
      if p ≠ [] then return some p else return none
    else return none
  | none => return none

/-- The dictionary returned by `Link.info`. -/
structure LinkInfo where
  url : List Char
  base_url : Option (List Char)
  absolute_url : Option (List Char)
  is_absolute : Bool
  scheme : Option (List Char)
  domain : Option (List Char)
  path : Option (List Char)
deriving DecidableEq

/-- `Link.info`. -/
def Link.info (l : Link) : Except PyErr LinkInfo := do
  return ⟨l.url, l.base_url, ← l.absolute, ← l.is_absolute, ← l.scheme,
          ← l.domain, ← l.path⟩

/-! ## The `LinkExtractor` class (src/main.py) -/

/-- The stored state: `_base_url` (`base_url.rstrip("/")`, or `none` when the
argument was `None` or empty). -/
structure LinkExtractor where
  base_url : Option (List Char)
deriving DecidableEq

/-- `LinkExtractor.__init__`. -/
def LinkExtractor.make (base_url : Option (List Char)) : LinkExtractor :=
  ⟨match base_url with
    | some b => if b ≠ [] then some (pyRstripSlash b) else none
    | none => none⟩

/-- `LinkExtractor.extract_from_html_code`.  The Python `set(urls)` has an
unspecified iteration order; it is embedded as `List.dedup` (one occurrence
of each distinct value).  Every property proved about the deduplicated result
below is invariant under permutation, so it holds for any iteration order. -/
def LinkExtractor.extract_from_html_code (e : LinkExtractor)
    (html : List Char) (unique : Bool) : List Link :=
  if html = [] then []
  else
    let urls := (findAll (html.length + 1) html).map pyStrip
    let urls := if unique then urls.dedup else urls
    urls.map (fun u => Link.make u e.base_url)

/-- `LinkExtractor.extract_from_url`.  The network access
(`requests.get(self._base_url, timeout=25)` + `raise_for_status` + `.text`)
is an external collaborator and is passed in as the oracle `fetch`; a
`RequestException` from it is caught and re-raised.  The `base_url` guard is
translated exactly: `if not self._base_url: raise
EmptyValueForMethodError("base_url")`. -/
def LinkExtractor.extract_from_url (e : LinkExtractor)
    (fetch : List Char → Except PyErr (List Char)) (unique : Bool) :
    Except PyErr (List Link) :=
  match e.base_url with
  | none => .error (.emptyValueForMethod "base_url")
  | some b =>
    if b = [] then .error (.emptyValueForMethod "base_url")
    else
      match fetch b with
      | .ok html => .ok (e.extract_from_html_code html unique)
      | .error _ => .error .requestException

/-- `LinkExtractor.validate_links`. -/
def LinkExtractor.validate_links (links : List Link) :
    Except PyErr (List LinkInfo) :=
  links.mapM Link.info

/-! ## RFC 3986 §5 reference resolution, following the specification's words

The spec describes `absolute` as joining `raw` onto `base` "using standard
relative-reference resolution (RFC 3986 §5 semantics)": protocol-relative
references inherit the base's scheme; root-relative references inherit
scheme+authority; pure relative references resolve against the base's path
with `.`/`..` segment removal; fragment-only or empty references yield the
base with the fragment replaced.  The definitions below formalize exactly
that (RFC 3986 §5.2-§5.3: component parsing per Appendix B, merge,
remove_dot_segments, strict transformation, recomposition), to be compared
with the code's `urljoin`-based definition. -/

/-- An URI reference split into its five RFC 3986 components. -/
structure UriRef where
  scheme : Option (List Char)
  authority : Option (List Char)
  path : List Char
  query : Option (List Char)
  fragment : Option (List Char)
deriving DecidableEq

/-- Component parsing per RFC 3986 Appendix B. -/
def rfcParse (s : List Char) : UriRef :=
  let pre := s.takeWhile (fun c => ¬ (c = ':' ∨ c = '/' ∨ c = '?' ∨ c = '#'))
  let (scheme, r1) :=
    match s.drop pre.length with
    | ':' :: rest => if pre ≠ [] then (some pre, rest) else (none, s)
    | _ => (none, s)
  let (authority, r2) :=
    if r1.take 2 = chars "//" then
      let a := (r1.drop 2).takeWhile (fun c => ¬ (c = '/' ∨ c = '?' ∨ c = '#'))
      (some a, (r1.drop 2).drop a.length)
    else (none, r1)
  let path := r2.takeWhile (fun c => ¬ (c = '?' ∨ c = '#'))
  let r3 := r2.drop path.length
  let query :=
    match r3 with
    | '?' :: rest => some (rest.takeWhile (fun c => c ≠ '#'))
    | _ => none
  let fragment :=
    match r3.dropWhile (fun c => c ≠ '#') with
    | '#' :: rest => some rest
    | _ => none
  ⟨scheme, authority, path, query, fragment⟩

/-- RFC 3986 §5.2.4 `remove_dot_segments`, step 2C helper: remove the last
segment and its preceding `/` (if any) from the output buffer. -/
def rfcPopSeg (out : List Char) : List Char :=
  let r := out.reverse.dropWhile (fun c => c ≠ '/')
  (match r with
   | '/' :: t => t
   | t => t).reverse

/-- RFC 3986 §5.2.4 `remove_dot_segments`, as a fuelled loop over the input
buffer (every iteration strictly shortens the input, so `inp.length` fuel
suffices). -/
def rfcRdsLoop : Nat → List Char → List Char → List Char
  | 0, _, out => out
  | fuel + 1, inp, out =>
    if inp = [] then out
    else if inp.take 3 = chars "../" then rfcRdsLoop fuel (inp.drop 3) out
    else if inp.take 2 = chars "./" then rfcRdsLoop fuel (inp.drop 2) out
    else if inp.take 3 = chars "/./" then rfcRdsLoop fuel ('/' :: inp.drop 3) out
    else if inp = chars "/." then rfcRdsLoop fuel (chars "/") out
    else if inp.take 4 = chars "/../" then
      rfcRdsLoop fuel ('/' :: inp.drop 4) (rfcPopSeg out)
    else if inp = chars "/.." then rfcRdsLoop fuel (chars "/") (rfcPopSeg out)
    else if inp = chars "." ∨ inp = chars ".." then rfcRdsLoop fuel [] out
    else
      match inp with
      | '/' :: t =>
        let seg := t.takeWhile (fun c => c ≠ '/')
        rfcRdsLoop fuel (t.drop seg.length) (out ++ '/' :: seg)
      | _ =>
        let seg := inp.takeWhile (fun c => c ≠ '/')
        rfcRdsLoop fuel (inp.drop seg.length) (out ++ seg)

/-- RFC 3986 §5.2.4 `remove_dot_segments`. -/
def rfcRemoveDotSegments (p : List Char) : List Char :=
  rfcRdsLoop (p.length + 1) p []

/-- RFC 3986 §5.2.3 `merge`. -/
def rfcMerge (B : UriRef) (rpath : List Char) : List Char :=
  if B.authority.isSome ∧ B.path = [] then '/' :: rpath
  else if '/' ∈ B.path then
    (B.path.reverse.dropWhile (fun c => c ≠ '/')).reverse ++ rpath
  else rpath

/-- RFC 3986 §5.3 recomposition. -/
def rfcRecompose (T : UriRef) : List Char :=
  let u := match T.scheme with
    | some s => s ++ [':']
    | none => []
  let u := match T.authority with
    | some a => u ++ '/' :: '/' :: a
    | none => u
  let u := u ++ T.path
  let u := match T.query with
    | some q => u ++ '?' :: q
    | none => u
  match T.fragment with
  | some f => u ++ '#' :: f
  | none => u

/-- RFC 3986 §5.2.2 strict transformation of reference `ref` against `base`,
recomposed to a string: the specification's "standard relative-reference
resolution (RFC 3986 §5 semantics)". -/
def rfc3986_resolve (base ref : List Char) : List Char :=
  let B := rfcParse base
  let R := rfcParse ref
  let T : UriRef :=
    if R.scheme.isSome then
      ⟨R.scheme, R.authority, rfcRemoveDotSegments R.path, R.query, R.fragment⟩
    else if R.authority.isSome then
      ⟨B.scheme, R.authority, rfcRemoveDotSegments R.path, R.query, R.fragment⟩
    else if R.path = [] then
      ⟨B.scheme, B.authority, B.path,
       (if R.query.isSome then R.query else B.query), R.fragment⟩
    else if R.path.take 1 = chars "/" then
      ⟨B.scheme, B.authority, rfcRemoveDotSegments R.path, R.query, R.fragment⟩
    else
      ⟨B.scheme, B.authority, rfcRemoveDotSegments (rfcMerge B R.path),
       R.query, R.fragment⟩
  rfcRecompose T

/-! ## Predicates used in the claim statements -/

/-- The list contains neither quote character. -/
def QuoteFree (l : List Char) : Prop := ∀ c ∈ l, c ≠ '"' ∧ c ≠ '\''

/-- Every character is Python whitespace. -/
def AllSpace (l : List Char) : Prop := ∀ c ∈ l, isPySpace c = true

/-- No character is Python whitespace and none is `>`. -/
def PlainAttr (l : List Char) : Prop :=
  ∀ c ∈ l, isPySpace c = false ∧ c ≠ '>'

/-- The list contains no square bracket (so `urlsplit` cannot raise on it). -/
def NoBrackets (l : List Char) : Prop := ∀ c ∈ l, c ≠ '[' ∧ c ≠ ']'

/-- All characters are ASCII (where the un-modelled `_checknetloc` NFKC check
of CPython is vacuous). -/
def AsciiOnly (l : List Char) : Prop := ∀ c ∈ l, c.toNat < 128

instance : DecidablePred QuoteFree := fun l =>
  inferInstanceAs (Decidable (∀ c ∈ l, c ≠ '"' ∧ c ≠ '\''))

instance : DecidablePred AllSpace := fun l =>
  inferInstanceAs (Decidable (∀ c ∈ l, isPySpace c = true))

instance : DecidablePred PlainAttr := fun l =>
  inferInstanceAs (Decidable (∀ c ∈ l, isPySpace c = false ∧ c ≠ '>'))

instance : DecidablePred NoBrackets := fun l =>
  inferInstanceAs (Decidable (∀ c ∈ l, c ≠ '[' ∧ c ≠ ']'))

instance : DecidablePred AsciiOnly := fun l =>
  inferInstanceAs (Decidable (∀ c ∈ l, c.toNat < 128))

/-! ## Lemmas about the matcher: character facts -/

theorem ws_facts {c : Char} (h : isPySpace c = true) :
    lowerAscii c ≠ 'h' ∧ c ≠ '>' ∧ c ≠ '"' ∧ c ≠ '\'' ∧ c ≠ '=' ∧ c ≠ '<' := by
  simp only [isPySpace, decide_eq_true_eq] at h
  rcases h with h|h|h|h|h|h|h|h|h|h|h|h|h|h|h|h|h|h|h|h|h|h|h|h|h|h|h|h|h <;>
    subst h <;> exact (by decide)

theorem quote_cases {q : Char} (h : isQuote q = true) : q = '"' ∨ q = '\'' := by
  simpa [isQuote, decide_eq_true_eq] using h

theorem quote_facts {q : Char} (h : isQuote q = true) :
    lowerAscii q = q ∧ isPySpace q = false ∧ q ≠ '>' ∧ q ≠ '<' ∧ q ≠ '=' ∧
      q ≠ 'a' ∧ lowerAscii q ≠ 'a' := by
  rcases quote_cases h with rfl | rfl <;> exact (by decide)

theorem QuoteFree.not_quote {l : List Char} (h : QuoteFree l) {c : Char}
    (hc : c ∈ l) : isQuote c = false := by
  obtain ⟨h1, h2⟩ := h c hc
  simp [isQuote, h1, h2]

theorem QuoteFree.mono {l l' : List Char} (h : QuoteFree l) (hsub : l' ⊆ l) :
    QuoteFree l' := fun c hc => h c (hsub hc)

/-! Lemmas about `dropWhile`/`takeWhile` across an append whose break point is
explicit. -/

theorem dropWhile_append_cons {p : Char → Bool} {x : Char} (hx : p x = false)
    (w r : List Char) :
    (w ++ x :: r).dropWhile p = w.dropWhile p ++ x :: r := by
  induction w with
  | nil => simp [List.dropWhile_cons, hx]
  | cons c w ih =>
    by_cases hc : p c
    · simp [List.dropWhile_cons, hc, ih]
    · simp [List.dropWhile_cons, hc]

theorem takeWhile_append_cons {p : Char → Bool} {x : Char} (hx : p x = false)
    (w r : List Char) :
    (w ++ x :: r).takeWhile p = w.takeWhile p := by
  induction w with
  | cons c w ih =>
    by_cases hc : p c
    · simp [List.takeWhile_cons, hc, ih]
    · simp [List.takeWhile_cons, hc]
  | nil => simp [List.takeWhile_cons, hx]

/-! Inversion lemmas for the matcher steps. -/

theorem eatCI_suffix : ∀ lit s s', eatCI lit s = some s' → s' <:+ s := by
  intro lit
  induction lit with
  | nil =>
    intro s s' h
    simp only [eatCI, Option.some.injEq] at h
    exact h ▸ List.suffix_refl s
  | cons c cs ih =>
    intro s s' h
    cases s with
    | nil => simp [eatCI] at h
    | cons d ds =>
      simp only [eatCI] at h
      split at h
      · exact (ih ds s' h).trans (List.suffix_cons d ds)
      · exact absurd h (by simp)

theorem eatChar_eq {c : Char} {l s' : List Char} (h : eatChar c l = some s') :
    l = c :: s' := by
  cases l with
  | nil => simp [eatChar] at h
  | cons d rest =>
    simp only [eatChar] at h
    split at h
    · simp_all
    · simp at h

theorem eatBorder_eq {l : List Char} {q : Char} {s' : List Char}
    (h : eatBorder l = some (q, s')) : l = q :: s' ∧ isQuote q = true := by
  cases l with
  | nil => simp [eatBorder] at h
  | cons d rest =>
    simp only [eatBorder] at h
    split at h
    · obtain ⟨rfl, rfl⟩ := by simpa using h
      simp_all
    · simp at h

/-! The key rejection lemma: inside text of the form `w ++ q :: r` where `w`
and `r` contain no quote character, `matchHref` can never succeed, because the
only available border quote is `q` and the value run after it swallows all of
`r` without finding a closing quote. -/

theorem eatCI_qsplit : ∀ lit (w : List Char) (q : Char) r s',
    (∀ x ∈ lit, x ≠ '"' ∧ x ≠ '\'') → isQuote q = true → QuoteFree w →
    eatCI lit (w ++ q :: r) = some s' →
    ∃ w', s' = w' ++ q :: r ∧ QuoteFree w' := by
  intro lit
  induction lit with
  | nil =>
    intro w q r s' _ _ hw h
    simp only [eatCI, Option.some.injEq] at h
    exact ⟨w, h.symm, hw⟩
  | cons c cs ih =>
    intro w q r s' hlit hq hw h
    cases w with
    | nil =>
      simp only [List.nil_append, eatCI] at h
      rw [(quote_facts hq).1] at h
      split at h
      · rename_i hqc
        rcases quote_cases hq with rfl | rfl
        · exact absurd hqc.symm (hlit c (by simp)).1
        · exact absurd hqc.symm (hlit c (by simp)).2
      · simp at h
    | cons d w' =>
      simp only [List.cons_append, eatCI] at h
      split at h
      · exact ih w' q r s' (fun x hx => hlit x (List.mem_cons_of_mem c hx)) hq
          (hw.mono (List.subset_cons_self d w')) h
      · simp at h

theorem matchHref_qsplit {w : List Char} {q : Char} {r : List Char}
    (hq : isQuote q = true) (hw : QuoteFree w) (hr : QuoteFree r) :
    matchHref (w ++ q :: r) = none := by
  unfold matchHref
  cases h1 : eatCI (chars "href") (w ++ q :: r) with
  | none => rfl
  | some s1 =>
    obtain ⟨w1, rfl, hw1⟩ := eatCI_qsplit _ w q r s1 (by decide) hq hw h1
    have hqws : isPySpace q = false := (quote_facts hq).2.1
    have h2 : eatWs (w1 ++ q :: r) = w1.dropWhile isPySpace ++ q :: r :=
      dropWhile_append_cons hqws w1 r
    cases hdw : w1.dropWhile isPySpace with
    | nil =>
      have : eatChar '=' (eatWs (w1 ++ q :: r)) = none := by
        rw [h2, hdw]
        simp only [List.nil_append, eatChar]
        rw [if_neg (quote_facts hq).2.2.2.2.1]
      simp [this]
    | cons d w2 =>
      have hd : d ∈ w1 := (List.dropWhile_subset _) (hdw ▸ List.mem_cons_self d w2)
      by_cases hde : d = '='
      · subst hde
        have h3 : eatChar '=' (eatWs (w1 ++ q :: r)) = some (w2 ++ q :: r) := by
          rw [h2, hdw]; simp [eatChar]
        have hw2 : QuoteFree w2 := by
          refine hw1.mono (fun c hc => ?_)
          exact (List.dropWhile_subset _) (hdw ▸ List.mem_cons_of_mem _ hc)
        have h4 : eatWs (w2 ++ q :: r) = w2.dropWhile isPySpace ++ q :: r :=
          dropWhile_append_cons hqws w2 r
        cases hdw2 : w2.dropWhile isPySpace with
        | nil =>
          have h5 : eatBorder (eatWs (w2 ++ q :: r)) = some (q, r) := by
            rw [h4, hdw2]
            simp [eatBorder, hq]
          have h6 : eatValue q r = none := by
            unfold eatValue
            have : r.dropWhile (fun c => ¬ isQuote c) = [] := by
              rw [← List.append_nil r,
                List.dropWhile_append_of_pos (by
                  intro a ha; simp [hr.not_quote ha])]
              simp
            rw [this]
          simp [h3, h5, h6]
        | cons e w3 =>
          have he : e ∈ w2 :=
            (List.dropWhile_subset _) (hdw2 ▸ List.mem_cons_self e w3)
          have h5 : eatBorder (eatWs (w2 ++ q :: r)) = none := by
            rw [h4, hdw2]
            simp only [List.cons_append, eatBorder]
            rw [if_neg (by simp [hw2.not_quote he])]
          simp [h3, h5]
      · have h3 : eatChar '=' (eatWs (w1 ++ q :: r)) = none := by
          rw [h2, hdw]
          simp only [List.cons_append, eatChar]
          rw [if_neg hde]
        simp [h3]

theorem matchHref_quoteFree {u : List Char} (hu : QuoteFree u) :
    matchHref u = none := by
  unfold matchHref
  cases h1 : eatCI (chars "href") u with
  | none => rfl
  | some s1 =>
    have hs1 : s1 ⊆ u := (eatCI_suffix _ _ _ h1).sublist.subset
    cases h2 : eatChar '=' (eatWs s1) with
    | none => simp [h2]
    | some s3 =>
      have hs3 : s3 ⊆ u := fun c hc => by
        have := eatChar_eq h2
        exact hs1 ((List.dropWhile_subset _) (this ▸ List.mem_cons_of_mem '=' hc))
      cases h3 : eatBorder (eatWs s3) with
      | none => simp [h2, h3]
      | some qs5 =>
        exfalso
        obtain ⟨heq, hq⟩ := eatBorder_eq (l := eatWs s3) (by rw [h3])
        have : qs5.1 ∈ u :=
          hs3 ((List.dropWhile_subset _) (heq ▸ List.mem_cons_self _ _))
        rw [hu.not_quote this] at hq
        exact Bool.false_ne_true hq

/-! Rejection lemmas for the candidate scan and the whole pattern. -/

theorem presentCands_quoteFree : ∀ {u : List Char}, QuoteFree u →
    presentCands u = none := by
  intro u
  induction u with
  | nil => intro _; rfl
  | cons c rest ih =>
    intro hu
    have hrest : QuoteFree rest := hu.mono (List.subset_cons_self c rest)
    simp only [presentCands]
    by_cases hgt : c = '>'
    · simp [hgt]
    · rw [if_neg hgt]
      by_cases hws : isPySpace c
      · rw [if_pos hws, matchHref_quoteFree hrest, ih hrest]
      · rw [if_neg hws]; exact ih hrest

theorem presentCands_qsplit {w : List Char} {q : Char} {r : List Char}
    (hq : isQuote q = true) (hw : QuoteFree w) (hr : QuoteFree r) :
    presentCands (w ++ q :: r) = none := by
  induction w with
  | nil =>
    simp only [List.nil_append, presentCands]
    rw [if_neg (quote_facts hq).2.2.1, if_neg (by simp [(quote_facts hq).2.1])]
    exact presentCands_quoteFree hr
  | cons c w' ih =>
    have hw' : QuoteFree w' := hw.mono (List.subset_cons_self c w')
    simp only [List.cons_append, presentCands, List.append_eq]
    by_cases hgt : c = '>'
    · simp [hgt]
    · rw [if_neg hgt]
      by_cases hws : isPySpace c
      · rw [if_pos hws, matchHref_qsplit hq hw' hr, ih hw']
      · rw [if_neg hws]; exact ih hw'

theorem tryMatch_cons_ne {c : Char} {s : List Char} (h : c ≠ '<') :
    tryMatch (c :: s) = none := by
  cases s with
  | nil => rfl
  | cons d t => simp [tryMatch, h]

theorem tryMatch_quoteFree {u : List Char} (hu : QuoteFree u) :
    tryMatch u = none := by
  match u with
  | [] => rfl
  | [_] => rfl
  | a :: c :: t =>
    have ht : QuoteFree t :=
      (hu.mono (List.subset_cons_self a _)).mono (List.subset_cons_self c t)
    simp only [tryMatch]
    split
    · split
      · rfl
      · rw [presentCands_quoteFree (ht.mono (List.drop_subset _ t)),
          matchHref_quoteFree (ht.mono (List.drop_subset _ t))]
    · rfl

theorem tryMatch_qsplit {w : List Char} {q : Char} {r : List Char}
    (hq : isQuote q = true) (hw : QuoteFree w) (hr : QuoteFree r) :
    tryMatch (w ++ q :: r) = none := by
  match w with
  | [] =>
    exact tryMatch_cons_ne (quote_facts hq).2.2.2.1
  | [d] =>
    cases r with
    | nil =>
      simp only [List.cons_append, List.nil_append, tryMatch]
      rw [if_neg (by
        rintro ⟨-, h2⟩
        exact (quote_facts hq).2.2.2.2.2.2 h2)]
    | cons e r' =>
      simp only [List.cons_append, List.nil_append, tryMatch]
      rw [if_neg (by
        rintro ⟨-, h2⟩
        exact (quote_facts hq).2.2.2.2.2.2 h2)]
  | d :: e :: w'' =>
    have hw'' : QuoteFree w'' :=
      (hw.mono (List.subset_cons_self d _)).mono (List.subset_cons_self e w'')
    simp only [List.cons_append, tryMatch]
    split
    · have htk : ((w'' ++ q :: r).takeWhile isPySpace).length ≤ w''.length := by
        rw [takeWhile_append_cons (quote_facts hq).2.1 w'' r]
        exact (List.takeWhile_sublist _).length_le
      split
      · rfl
      · rw [List.drop_append_of_le_length htk]
        have hdsub : QuoteFree (w''.drop ((w'' ++ q :: r).takeWhile isPySpace).length) :=
          hw''.mono (List.drop_subset _ w'')
        rw [presentCands_qsplit hq hdsub hr, matchHref_qsplit hq hdsub hr]
    · rfl

theorem findAll_empty (fuel : Nat) : findAll fuel [] = [] := by
  cases fuel <;> rfl

theorem findAll_quoteFree : ∀ (fuel : Nat) {u : List Char}, QuoteFree u →
    findAll fuel u = [] := by
  intro fuel
  induction fuel with
  | zero => intro u _; rfl
  | succ fuel ih =>
    intro u hu
    cases u with
    | nil => rfl
    | cons c rest =>
      simp only [findAll]
      rw [tryMatch_quoteFree hu]
      exact ih (hu.mono (List.subset_cons_self c rest))

theorem findAll_qsplit : ∀ (fuel : Nat) (w : List Char) {q : Char}
    {r : List Char}, isQuote q = true → QuoteFree w → QuoteFree r →
    findAll fuel (w ++ q :: r) = [] := by
  intro fuel
  induction fuel with
  | zero => intro w q r _ _ _; rfl
  | succ fuel ih =>
    intro w q r hq hw hr
    cases w with
    | nil =>
      simp only [List.nil_append, findAll]
      rw [show tryMatch (q :: r) = none from
        tryMatch_qsplit (w := []) hq (by intro c hc; simp at hc) hr]
      exact findAll_quoteFree fuel hr
    | cons c w' =>
      simp only [List.cons_append, findAll, List.append_eq]
      rw [show tryMatch (c :: (w' ++ q :: r)) = none from
        tryMatch_qsplit (w := c :: w') hq hw hr]
      exact ih w' hq (hw.mono (List.subset_cons_self c w')) hr

/-! Success lemmas: a well-formed tag is matched with the expected captures. -/

theorem eatCI_exact : ∀ (lit s : List Char), (∀ c ∈ lit, lowerAscii c = c) →
    eatCI lit (lit ++ s) = some s := by
  intro lit
  induction lit with
  | nil => intro s _; rfl
  | cons c cs ih =>
    intro s h
    simp only [List.cons_append, eatCI, List.append_eq]
    rw [if_pos (h c (List.mem_cons_self c cs)), ih s
      (fun x hx => h x (List.mem_cons_of_mem c hx))]

theorem AllSpace.not_gt {l : List Char} (h : AllSpace l) {c : Char}
    (hc : c ∈ l) : (c ≠ '>') = True := by
  simp [(ws_facts (h c hc)).2.1]

theorem eatWs_space_append {w : List Char} (hw : AllSpace w) {x : Char}
    (hx : isPySpace x = false) (r : List Char) :
    eatWs (w ++ x :: r) = x :: r := by
  unfold eatWs
  rw [List.dropWhile_append_of_pos hw, List.dropWhile_cons_of_neg (by simp [hx])]

theorem matchHref_tag {w3a w3b w4 v rest : List Char} {q : Char}
    (h3a : AllSpace w3a) (h3b : AllSpace w3b) (h4 : AllSpace w4)
    (hv : QuoteFree v) (hq : isQuote q = true) :
    matchHref (chars "href" ++ (w3a ++ '=' :: (w3b ++ q :: (v ++ q :: (w4 ++ '>' :: rest)))))
      = some (v, rest) := by
  unfold matchHref
  rw [eatCI_exact (chars "href") _ (by decide)]
  simp only [Option.bind_eq_bind, Option.some_bind]
  rw [show eatWs (w3a ++ '=' :: (w3b ++ q :: (v ++ q :: (w4 ++ '>' :: rest)))) =
      '=' :: (w3b ++ q :: (v ++ q :: (w4 ++ '>' :: rest))) from
    eatWs_space_append h3a (by decide) _]
  rw [show eatChar '=' ('=' :: (w3b ++ q :: (v ++ q :: (w4 ++ '>' :: rest)))) =
      some (w3b ++ q :: (v ++ q :: (w4 ++ '>' :: rest))) by simp [eatChar]]
  simp only [Option.some_bind]
  rw [show eatWs (w3b ++ q :: (v ++ q :: (w4 ++ '>' :: rest))) =
      q :: (v ++ q :: (w4 ++ '>' :: rest)) from
    eatWs_space_append h3b (quote_facts hq).2.1 _]
  rw [show eatBorder (q :: (v ++ q :: (w4 ++ '>' :: rest))) =
      some (q, v ++ q :: (w4 ++ '>' :: rest)) by simp [eatBorder, hq]]
  simp only [Option.some_bind]
  rw [show eatValue q (v ++ q :: (w4 ++ '>' :: rest)) =
      some (v, w4 ++ '>' :: rest) by
    unfold eatValue
    rw [List.dropWhile_append_of_pos (by intro a ha; simp [hv.not_quote ha]),
      List.dropWhile_cons_of_neg (by simp [hq]),
      List.takeWhile_append_of_pos (by intro a ha; simp [hv.not_quote ha]),
      List.takeWhile_cons_of_neg (by simp [hq])]
    simp]
  simp only [Option.some_bind]
  rw [show eatTail (w4 ++ '>' :: rest) = some rest by
    unfold eatTail
    rw [List.dropWhile_append_of_pos (by
        intro c hc
        simp [(ws_facts (h4 c hc)).2.1]),
      List.dropWhile_cons_of_neg (by simp)]]
  simp only [Option.some_bind]
  rfl

theorem presentCands_skip {x : List Char} (hx : PlainAttr x) (rest : List Char) :
    presentCands (x ++ rest) = presentCands rest := by
  induction x with
  | nil => rfl
  | cons c x' ih =>
    obtain ⟨hws, hgt⟩ := hx c (List.mem_cons_self c x')
    simp only [List.cons_append, presentCands]
    rw [if_neg hgt, if_neg (by simp [hws])]
    exact ih (fun d hd => hx d (List.mem_cons_of_mem c hd))

theorem matchHref_ws_head {d : Char} (hd : isPySpace d = true)
    (X : List Char) : matchHref (d :: X) = none := by
  unfold matchHref
  rw [show chars "href" = 'h' :: chars "ref" from rfl]
  simp only [eatCI]
  rw [if_neg (ws_facts hd).1]
  rfl

theorem presentCands_ws_hit : ∀ (w2 : List Char) {M : List Char}
    {res : List Char × List Char}, AllSpace w2 → w2 ≠ [] →
    matchHref M = some res → presentCands (w2 ++ M) = some res := by
  intro w2
  induction w2 with
  | nil => intro M res _ h _; exact absurd rfl h
  | cons c w2' ih =>
    intro M res hws _ hM
    have hc := hws c (List.mem_cons_self c w2')
    cases w2' with
    | nil =>
      simp only [List.cons_append, List.nil_append, presentCands, List.append_eq]
      rw [if_neg (by simpa using (ws_facts hc).2.1), if_pos hc, hM]
    | cons c2 w2'' =>
      have hc2 := hws c2 (by simp)
      simp only [List.cons_append, presentCands, List.append_eq]
      rw [if_neg (by simpa using (ws_facts hc).2.1), if_pos hc]
      rw [show matchHref (c2 :: (w2'' ++ M)) = none from matchHref_ws_head hc2 _]
      exact ih (fun d hd => hws d (List.mem_cons_of_mem c hd)) (by simp) hM

/-! Idempotence of Python `strip`. -/

theorem dropWhile_idem (p : Char → Bool) (l : List Char) :
    (l.dropWhile p).dropWhile p = l.dropWhile p := by
  induction l with
  | nil => rfl
  | cons c l ih =>
    by_cases hc : p c
    · simp [List.dropWhile_cons, hc, ih]
    · simp [List.dropWhile_cons, hc]

theorem pyRstrip_idem (l : List Char) : pyRstrip (pyRstrip l) = pyRstrip l := by
  unfold pyRstrip
  rw [List.reverse_reverse, dropWhile_idem]

theorem pyLstrip_pyRstrip_pyLstrip (l : List Char) :
    pyLstrip (pyRstrip (pyLstrip l)) = pyRstrip (pyLstrip l) := by
  unfold pyLstrip pyRstrip
  cases hA : l.dropWhile isPySpace with
  | nil => simp
  | cons a A' =>
    have ha : isPySpace a = false := by
      have h0 := List.head?_dropWhile_not isPySpace l
      rw [hA] at h0
      simpa using h0
    cases hB : (a :: A').reverse.dropWhile isPySpace with
    | nil => simp [hB]
    | cons b B' =>
      obtain ⟨pre, hpre⟩ : (b :: B') <:+ (a :: A').reverse :=
        hB ▸ List.dropWhile_suffix _
      have hrev : (b :: B').reverse ++ pre.reverse = a :: A' := by
        have h1 := congrArg List.reverse hpre
        simpa [List.reverse_append] using h1
      cases hC : (b :: B').reverse with
      | nil => simp at hC
      | cons x xs =>
        rw [hC] at hrev
        have hx : x = a := by
          have h2 := congrArg List.head? hrev
          simpa using h2
        rw [hx, List.dropWhile_cons_of_neg (by simp [ha])]

theorem pyStrip_idem (l : List Char) : pyStrip (pyStrip l) = pyStrip l := by
  unfold pyStrip
  rw [pyLstrip_pyRstrip_pyLstrip, pyRstrip_idem]


/-! Inversion: a successful match always consumed a `>`. -/

theorem matchHref_head_ne {d : Char} (hd : lowerAscii d ≠ 'h') (X : List Char) :
    matchHref (d :: X) = none := by
  unfold matchHref
  rw [show chars "href" = 'h' :: chars "ref" from rfl]
  simp only [eatCI]
  rw [if_neg hd]
  rfl

theorem eatTail_gt {s s' : List Char} (h : eatTail s = some s') : '>' ∈ s := by
  unfold eatTail at h
  cases hd : s.dropWhile (fun c => c ≠ '>') with
  | nil => rw [hd] at h; exact Option.noConfusion h
  | cons c rest =>
    have hc : c = '>' := by
      have h0 := List.head?_dropWhile_not (fun c => c ≠ '>') s
      rw [hd] at h0
      simpa using h0
    subst hc
    exact (List.dropWhile_subset _) (hd ▸ List.mem_cons_self _ _)

theorem eatValue_sub {q : Char} {s5 url s7 : List Char}
    (h : eatValue q s5 = some (url, s7)) : s7 ⊆ s5 := by
  unfold eatValue at h
  cases hd : s5.dropWhile (fun c => ¬ isQuote c) with
  | nil => rw [hd] at h; exact Option.noConfusion h
  | cons c rest =>
    rw [hd] at h
    split at h
    · rename_i x d rest' heq
      obtain ⟨rfl, rfl⟩ : c = d ∧ rest = rest' := by
        injection heq with e1 e2; exact ⟨e1, e2⟩
      split at h
      · rw [Option.some.injEq, Prod.mk.injEq] at h
        obtain ⟨-, rfl⟩ := h
        exact fun x hx => (List.dropWhile_subset _) (hd ▸ List.mem_cons_of_mem c hx)
      · exact Option.noConfusion h
    · rename_i x heq
      exact List.noConfusion heq

theorem matchHref_gt {u : List Char} {r : List Char × List Char}
    (h : matchHref u = some r) : '>' ∈ u := by
  unfold matchHref at h
  simp only [Option.bind_eq_bind] at h
  cases h1 : eatCI (chars "href") u with
  | none => rw [h1] at h; exact Option.noConfusion h
  | some s1 =>
    rw [h1] at h
    simp only [Option.some_bind] at h
    cases h2 : eatChar '=' (eatWs s1) with
    | none => rw [h2] at h; exact Option.noConfusion h
    | some s3 =>
      rw [h2] at h
      simp only [Option.some_bind] at h
      cases h3 : eatBorder (eatWs s3) with
      | none => rw [h3] at h; exact Option.noConfusion h
      | some qs5 =>
        obtain ⟨q, s5⟩ := qs5
        rw [h3] at h
        simp only [Option.some_bind] at h
        cases h4 : eatValue q s5 with
        | none => rw [h4] at h; exact Option.noConfusion h
        | some us7 =>
          obtain ⟨url, s7⟩ := us7
          rw [h4] at h
          simp only [Option.some_bind] at h
          cases h5 : eatTail s7 with
          | none => rw [h5] at h; exact Option.noConfusion h
          | some s9 =>
            have m7 : '>' ∈ s7 := eatTail_gt h5
            have m5 : s7 ⊆ s5 := eatValue_sub h4
            have hb := eatBorder_eq h3
            have m3 : s5 ⊆ s3 := fun x hx =>
              (List.dropWhile_subset _) (hb.1 ▸ List.mem_cons_of_mem q hx)
            have hc := eatChar_eq h2
            have m1 : s3 ⊆ s1 := fun x hx =>
              (List.dropWhile_subset _) (hc ▸ List.mem_cons_of_mem '=' hx)
            exact (eatCI_suffix _ _ _ h1).sublist.subset (m1 (m3 (m5 m7)))

theorem presentCands_gt : ∀ {u : List Char} {r : List Char × List Char},
    presentCands u = some r → '>' ∈ u := by
  intro u
  induction u with
  | nil => intro r h; simp [presentCands] at h
  | cons c rest ih =>
    intro r h
    simp only [presentCands] at h
    by_cases hgt : c = '>'
    · rw [if_pos hgt] at h; simp at h
    · rw [if_neg hgt] at h
      by_cases hws : isPySpace c
      · rw [if_pos hws] at h
        cases hm : matchHref rest with
        | some r' => exact List.mem_cons_of_mem c (matchHref_gt hm)
        | none => rw [hm] at h; exact List.mem_cons_of_mem c (ih h)
      · rw [if_neg hws] at h
        exact List.mem_cons_of_mem c (ih h)

theorem tryMatch_gt : ∀ {u : List Char} {r : List Char × List Char},
    tryMatch u = some r → '>' ∈ u := by
  intro u r h
  match u, h with
  | a :: c :: t, h =>
    simp only [tryMatch] at h
    split at h
    · split at h
      · simp at h
      · have hsub : t.drop ((t.takeWhile isPySpace).length) ⊆ t := List.drop_subset _ t
        cases hp : presentCands (t.drop ((t.takeWhile isPySpace).length)) with
        | some r' =>
          rw [hp] at h
          exact List.mem_cons_of_mem a (List.mem_cons_of_mem c (hsub (presentCands_gt hp)))
        | none =>
          rw [hp] at h
          exact List.mem_cons_of_mem a (List.mem_cons_of_mem c (hsub (matchHref_gt h)))
    · simp at h

theorem findAll_no_gt : ∀ (fuel : Nat) {u : List Char}, '>' ∉ u →
    findAll fuel u = [] := by
  intro fuel
  induction fuel with
  | zero => intro u _; rfl
  | succ fuel ih =>
    intro u hu
    cases u with
    | nil => rfl
    | cons c rest =>
      simp only [findAll]
      cases ht : tryMatch (c :: rest) with
      | some r => exact absurd (tryMatch_gt ht) hu
      | none => exact ih (fun hm => hu (List.mem_cons_of_mem c hm))

/-! Assembly helpers for the extraction pipeline. -/

theorem map_pyStrip_of_stripped {L : List (List Char)}
    (h : ∀ x ∈ L, pyStrip x = x) : L.map pyStrip = L := by
  induction L with
  | nil => rfl
  | cons x L ih =>
    simp only [List.map_cons, h x (List.mem_cons_self x L)]
    rw [ih (fun y hy => h y (List.mem_cons_of_mem x hy))]

theorem findAll_nil_of_prefix_no_lt : ∀ (x : List Char) (fuel : Nat) {q : Char}
    {v r : List Char}, (∀ c ∈ x, c ≠ '<') → isQuote q = true → QuoteFree v →
    QuoteFree r → findAll fuel (x ++ (v ++ q :: r)) = [] := by
  intro x
  induction x with
  | nil =>
    intro fuel q v r _ hq hv hr
    exact findAll_qsplit fuel v hq hv hr
  | cons c x' ih =>
    intro fuel q v r hx hq hv hr
    cases fuel with
    | zero => rfl
    | succ fuel =>
      simp only [List.cons_append, findAll, List.append_eq]
      rw [tryMatch_cons_ne (hx c (List.mem_cons_self c x'))]
      exact ih fuel (fun d hd => hx d (List.mem_cons_of_mem c hd)) hq hv hr


/-! One-step unfolding of `findAll` (kept as lemmas so that concrete cons
lists are not eagerly unrolled). -/

theorem findAll_cons_none {fuel : Nat} {c : Char} {rest : List Char}
    (h : tryMatch (c :: rest) = none) :
    findAll (fuel + 1) (c :: rest) = findAll fuel rest := by
  simp only [findAll, h]

theorem findAll_cons_some {fuel : Nat} {c : Char} {rest url after : List Char}
    (h : tryMatch (c :: rest) = some (url, after)) :
    findAll (fuel + 1) (c :: rest) = url :: findAll fuel after := by
  simp only [findAll, h]

/-! ## Claim theorems -/

/-- **C6**: extraction rejects badly quoted href values: `<a href="x'>` and
`<a href='x">` (mismatched opening/closing quote characters) each yield zero
matches, and the unquoted `<a href=https://example.com>` also yields zero
matches. -/
theorem claim_C6 :
    (((LinkExtractor.make none).extract_from_html_code
        (chars "<a href=\"x'>") false).map Link.url = [] ∧
     ((LinkExtractor.make none).extract_from_html_code
        (chars "<a href='x\">") false).map Link.url = []) ∧
    ((LinkExtractor.make none).extract_from_html_code
        (chars "<a href=https://example.com>") false).map Link.url = [] := by
  refine ⟨⟨?_, ?_⟩, ?_⟩ <;> rfl

/-- **C2, counterexample**: the claim asserts that a double-quoted href value
containing a single quote (and no double quote) is recognized as exactly one
occurrence with that value; in fact the value class of `HYPERLINK_PATTERN` is
`[^"']*`, which excludes BOTH quote characters, so `<a href="a'b">` yields
zero occurrences. -/
theorem claim_C2_counterexample :
    ((LinkExtractor.make none).extract_from_html_code
        (chars "<a href=\"a'b\">") false).map Link.url = [] ∧
    ([] : List (List Char)) ≠ [chars "a'b"] := by
  exact ⟨rfl, by decide⟩

/-- **C4, counterexample**: the claim asserts that a tag with no `>` before a
subsequent `<` yields zero occurrences; in fact the tail `[^>]*?>` of
`HYPERLINK_PATTERN` matches across `<`, so `<a href="x" <b>` (where `<`
precedes the first `>` after the href value) yields one occurrence. -/
theorem claim_C4_counterexample :
    ((LinkExtractor.make none).extract_from_html_code
        (chars "<a href=\"x\" <b>") false).map Link.url = [chars "x"] ∧
    [chars "x"] ≠ ([] : List (List Char)) := by
  exact ⟨rfl, by decide⟩

/-- **C3, counterexample**: the claim asserts the component never raises; in
fact `urlparse` raises `ValueError("Invalid IPv6 URL")` on an authority with
an unmatched bracket, so evaluating `is_absolute` of `Link("http://[")`
raises. -/
theorem claim_C3_counterexample :
    (Link.make (chars "http://[") none).is_absolute =
      .error (.valueError "Invalid IPv6 URL") := by
  rfl

/-- **C1, counterexample**: the claim asserts that a relative reference with a
base present resolves by standard RFC 3986 relative-reference resolution; in
fact Python's `urljoin` returns the reference unchanged when the base scheme
is not in `uses_relative`: for base `mailto:someone@example.com` and raw
`foo` the code yields `foo`, while RFC 3986 §5 yields `mailto:foo`. -/
theorem claim_C1_counterexample :
    (Link.make (chars "foo") (some (chars "mailto:someone@example.com"))).absolute
      = .ok (some (chars "foo")) ∧
    rfc3986_resolve (chars "mailto:someone@example.com") (chars "foo")
      = chars "mailto:foo" ∧
    chars "foo" ≠ chars "mailto:foo" := by
  exact ⟨rfl, rfl, by decide⟩

/-- **C5, counterexample**: the claim asserts that a protocol-relative
reference with a base present always inherits the base's scheme; in fact with
base `mailto:user@example.com` (scheme not in `uses_relative`) the reference
is returned unresolved, and the resulting absolute URL has an empty scheme
rather than the base's. -/
theorem claim_C5_counterexample :
    (Link.make (chars "//evil.com/x") (some (chars "mailto:user@example.com"))).absolute
      = .ok (some (chars "//evil.com/x")) ∧
    (Link.make (chars "//evil.com/x") (some (chars "mailto:user@example.com"))).scheme
      = .ok (some []) ∧
    ([] : List Char) ≠ chars "mailto" := by
  exact ⟨rfl, rfl, by decide⟩

/-- **C8**: invoking `extract_from_url` on an extractor whose base URL is not
configured (constructed from `None` or from a string that normalizes to
empty) raises `EmptyValueForMethodError("base_url")` — it neither defaults
silently nor returns an empty result, whatever the network oracle and the
`unique` flag are. -/
theorem claim_C8 (e : LinkExtractor)
    (fetch : List Char → Except PyErr (List Char)) (unique : Bool)
    (h : e.base_url = none ∨ e.base_url = some []) :
    e.extract_from_url fetch unique =
      .error (.emptyValueForMethod "base_url") := by
  rcases h with h | h <;> simp [LinkExtractor.extract_from_url, h]

/-- Witness for `claim_C8` at the concrete extractor built from `None`. -/
theorem claim_C8_witness :
    (LinkExtractor.make none).extract_from_url (fun _ => .ok []) false =
      .error (.emptyValueForMethod "base_url") :=
  claim_C8 (LinkExtractor.make none) (fun _ => .ok []) false (Or.inl rfl)

/-- **C4, amended**: an anchor tag that is unterminated — no `>` anywhere
before the end of the input — is rejected: if the input contains no `>` at
all, extraction yields zero occurrences.  (The original claim's stronger
condition "no `>` before a subsequent `<`" is refuted by
`claim_C4_counterexample`: the pattern's tail `[^>]*?>` matches across `<`.) -/
theorem claim_C4 (e : LinkExtractor) (html : List Char) (unique : Bool)
    (h : '>' ∉ html) : e.extract_from_html_code html unique = [] := by
  unfold LinkExtractor.extract_from_html_code
  by_cases hn : html = []
  · simp [hn]
  · rw [if_neg hn, findAll_no_gt _ h]
    cases unique <;> rfl

/-- Witness for `claim_C4` at a concrete unterminated tag. -/
theorem claim_C4_witness :
    (LinkExtractor.make none).extract_from_html_code
      (chars "<a href=\"x\"") false = [] :=
  claim_C4 (LinkExtractor.make none) (chars "<a href=\"x\"") false (by decide)

/-- The whole pattern succeeds on a minimal well-formed double-quoted tag,
capturing the value. -/
theorem tryMatch_href_tag {v : List Char} (hv : QuoteFree v) :
    tryMatch ('<' :: 'a' :: (' ' :: (chars "href=\"" ++ (v ++ '"' :: ['>']))))
      = some (v, []) := by
  simp only [tryMatch]
  rw [if_pos (⟨trivial, by decide⟩ : True ∧ lowerAscii 'a' = 'a')]
  have hk : ((' ' :: (chars "href=\"" ++ (v ++ '"' :: ['>']))).takeWhile
      isPySpace).length = 1 := by
    rw [List.takeWhile_cons_of_pos (by decide),
      show chars "href=\"" ++ (v ++ '"' :: ['>']) =
        'h' :: (chars "ref=\"" ++ (v ++ '"' :: ['>'])) from by simp [chars],
      List.takeWhile_cons_of_neg (by decide)]
    rfl
  rw [hk]
  simp only [Nat.one_ne_zero, if_neg, List.drop_succ_cons, List.drop_zero]
  have hpc : presentCands (chars "href=\"" ++ (v ++ '"' :: ['>'])) = none := by
    rw [presentCands_skip (by decide) _]
    exact presentCands_qsplit (by decide) hv (by decide)
  rw [hpc]
  have hm : matchHref (chars "href=\"" ++ (v ++ '"' :: ['>'])) = some (v, []) := by
    rw [show chars "href=\"" ++ (v ++ '"' :: ['>']) =
        chars "href" ++ ([] ++ '=' :: ([] ++ '"' :: (v ++ '"' :: ([] ++ '>' :: []))))
      from by simp [chars]]
    exact matchHref_tag (by intro c hc; cases hc) (by intro c hc; cases hc)
      (by intro c hc; cases hc) hv (by decide)
  rw [hm]
  simp

/-- **C2, amended**: the quoted href value may be any sequence of characters
containing neither quote character: for every such value `v`, the tag
`<a href="v">` is recognized as exactly one occurrence whose raw value is `v`
stripped of surrounding whitespace.  (A value containing the non-opening
quote character is rejected: see `claim_C2_counterexample`.) -/
theorem claim_C2 (e : LinkExtractor) (v : List Char) (hv : QuoteFree v) :
    (e.extract_from_html_code (chars "<a href=\"" ++ v ++ chars "\">")
      false).map Link.url = [pyStrip v] := by
  have hshape : chars "<a href=\"" ++ v ++ chars "\">" =
      '<' :: 'a' :: (' ' :: (chars "href=\"" ++ (v ++ '"' :: ['>']))) := by
    simp [chars]
  unfold LinkExtractor.extract_from_html_code
  rw [hshape, if_neg (by simp)]
  have hfa : findAll
      (('<' :: 'a' :: (' ' :: (chars "href=\"" ++ (v ++ '"' :: ['>'])))).length + 1)
      ('<' :: 'a' :: (' ' :: (chars "href=\"" ++ (v ++ '"' :: ['>'])))) = [v] := by
    rw [show ('<' :: 'a' :: (' ' :: (chars "href=\"" ++ (v ++ '"' :: ['>'])))).length + 1
        = (('a' :: (' ' :: (chars "href=\"" ++ (v ++ '"' :: ['>'])))).length + 1) + 1
      from by simp]
    simp only [findAll]
    rw [tryMatch_href_tag hv]
    simp [findAll_empty]
  rw [hfa]
  simp [Link.make, pyStrip_idem]

/-- Witness for `claim_C2` at the value `a b` (contains a space, no quotes). -/
theorem claim_C2_witness :
    ((LinkExtractor.make none).extract_from_html_code
      (chars "<a href=\"a b\">") false).map Link.url = [chars "a b"] := by
  have h := claim_C2 (LinkExtractor.make none) (chars "a b") (by decide)
  simpa using h

/-- The whole pattern fails on a `data-href` tag: the candidate positions for
`href` all lie after whitespace, and `data-href` is never preceded by
whitespace. -/
theorem tryMatch_data_href {v : List Char} (hv : QuoteFree v) :
    tryMatch ('<' :: 'a' :: (' ' :: (chars "data-href=\"" ++ (v ++ '"' :: ['>']))))
      = none := by
  simp only [tryMatch]
  rw [if_pos (⟨trivial, by decide⟩ : True ∧ lowerAscii 'a' = 'a')]
  have hk : ((' ' :: (chars "data-href=\"" ++ (v ++ '"' :: ['>']))).takeWhile
      isPySpace).length = 1 := by
    rw [List.takeWhile_cons_of_pos (by decide),
      show chars "data-href=\"" ++ (v ++ '"' :: ['>']) =
        'd' :: (chars "ata-href=\"" ++ (v ++ '"' :: ['>'])) from by simp [chars],
      List.takeWhile_cons_of_neg (by decide)]
    rfl
  rw [hk]
  simp only [Nat.one_ne_zero, if_neg, List.drop_succ_cons, List.drop_zero]
  have hpc : presentCands (chars "data-href=\"" ++ (v ++ '"' :: ['>'])) = none := by
    rw [presentCands_skip (by decide) _]
    exact presentCands_qsplit (by decide) hv (by decide)
  rw [hpc]
  have hm : matchHref (chars "data-href=\"" ++ (v ++ '"' :: ['>'])) = none := by
    rw [show chars "data-href=\"" ++ (v ++ '"' :: ['>']) =
        'd' :: (chars "ata-href=\"" ++ (v ++ '"' :: ['>'])) from by simp [chars]]
    exact matchHref_head_ne (by decide) _
  rw [hm]
  simp

/-- **C10**: an attribute whose name merely ends in `href` never matches: for
every quote-free value `v` and either setting of the `unique` flag, the input
`<a data-href="v">` yields zero occurrences — `href` is recognized only
immediately after a whitespace character. -/
theorem claim_C10 (e : LinkExtractor) (v : List Char) (unique : Bool)
    (hv : QuoteFree v) :
    e.extract_from_html_code (chars "<a data-href=\"" ++ v ++ chars "\">")
      unique = [] := by
  have hshape : chars "<a data-href=\"" ++ v ++ chars "\">" =
      '<' :: 'a' :: (' ' :: (chars "data-href=\"" ++ (v ++ '"' :: ['>']))) := by
    simp [chars]
  unfold LinkExtractor.extract_from_html_code
  rw [hshape, if_neg (by simp)]
  have hfa : findAll
      (('<' :: 'a' :: (' ' :: (chars "data-href=\"" ++ (v ++ '"' :: ['>'])))).length + 1)
      ('<' :: 'a' :: (' ' :: (chars "data-href=\"" ++ (v ++ '"' :: ['>'])))) = [] := by
    rw [findAll_cons_none (tryMatch_data_href hv)]
    rw [show ('a' :: (' ' :: (chars "data-href=\"" ++ (v ++ '"' :: ['>'])))) =
        ('a' :: ' ' :: chars "data-href=\"") ++ (v ++ '"' :: ['>']) from by
      simp [chars]]
    exact findAll_nil_of_prefix_no_lt _ _ (by decide) (by decide) hv (by decide)
  rw [hfa]
  cases unique <;> rfl

/-- Witness for `claim_C10` at the value `https://x`. -/
theorem claim_C10_witness :
    (LinkExtractor.make none).extract_from_html_code
      (chars "<a data-href=\"https://x\">") false = [] := by
  have h := claim_C10 (LinkExtractor.make none) (chars "https://x") false
    (by decide)
  rw [show chars "<a data-href=\"" ++ chars "https://x" ++ chars "\">" =
    chars "<a data-href=\"https://x\">" from rfl] at h
  exact h

/-- The whole pattern succeeds on a tag with an extra attribute and arbitrary
whitespace placement: whitespace after `<a`, an attribute, whitespace before
`href`, whitespace around `=`, whitespace inside the quoted value (kept),
whitespace before `>`. -/
theorem tryMatch_ws_tag {w1 a w2 w3a w3b w4 v : List Char} {q : Char}
    (h1 : AllSpace w1) (h1n : w1 ≠ []) (ha : PlainAttr a) (han : a ≠ [])
    (h2 : AllSpace w2) (h2n : w2 ≠ []) (h3a : AllSpace w3a)
    (h3b : AllSpace w3b) (h4 : AllSpace w4) (hv : QuoteFree v)
    (hq : isQuote q = true) :
    tryMatch ('<' :: 'a' :: (w1 ++ (a ++ (w2 ++ (chars "href" ++
        (w3a ++ '=' :: (w3b ++ q :: (v ++ q :: (w4 ++ ['>']))))))))) =
      some (v, []) := by
  obtain ⟨c, a', rfl⟩ : ∃ c a', a = c :: a' := by
    cases a with
    | nil => exact absurd rfl han
    | cons c a' => exact ⟨c, a', rfl⟩
  simp only [tryMatch]
  rw [if_pos (⟨trivial, by decide⟩ : True ∧ lowerAscii 'a' = 'a')]
  have hkeq : ((w1 ++ ((c :: a') ++ (w2 ++ (chars "href" ++
      (w3a ++ '=' :: (w3b ++ q :: (v ++ q :: (w4 ++ ['>'])))))))).takeWhile
      isPySpace) = w1 := by
    rw [List.takeWhile_append_of_pos h1, List.cons_append,
      List.takeWhile_cons_of_neg (by simp [(ha c (List.mem_cons_self c a')).1]),
      List.append_nil]
  rw [hkeq]
  rw [if_neg (by simp [List.length_eq_zero, h1n])]
  rw [List.drop_left]
  have hM : matchHref (chars "href" ++
      (w3a ++ '=' :: (w3b ++ q :: (v ++ q :: (w4 ++ ['>']))))) = some (v, []) :=
    matchHref_tag h3a h3b h4 hv hq
  have hpc : presentCands ((c :: a') ++ (w2 ++ (chars "href" ++
      (w3a ++ '=' :: (w3b ++ q :: (v ++ q :: (w4 ++ ['>'])))))))
      = some (v, []) := by
    rw [presentCands_skip ha _]
    exact presentCands_ws_hit w2 h2 h2n hM
  rw [hpc]

/-- **C9** (whitespace law), in two parts.  Part 1: every raw value returned
by extraction equals its own whitespace-stripped form (leading and trailing
whitespace inside the quoted value has been stripped).  Part 2: whitespace
placement inside the tag never affects recognition: for arbitrary whitespace
runs after `<a` (`w1`, nonempty), between an attribute and `href` (`w2`,
nonempty), around `=` (`w3a`, `w3b`), and before `>` (`w4`), an arbitrary
whitespace-free attribute `a`, either quote character, and any quote-free
value `v`, the tag is recognized as exactly one occurrence with raw value
`v` stripped. -/
theorem claim_C9 :
    (∀ (e : LinkExtractor) (html : List Char) (unique : Bool) (l : Link),
      l ∈ e.extract_from_html_code html unique → l.url = pyStrip l.url) ∧
    (∀ (e : LinkExtractor) (w1 a w2 w3a w3b w4 v : List Char) (q : Char),
      AllSpace w1 → w1 ≠ [] → PlainAttr a → a ≠ [] → AllSpace w2 → w2 ≠ [] →
      AllSpace w3a → AllSpace w3b → AllSpace w4 → QuoteFree v →
      isQuote q = true →
      (e.extract_from_html_code
        (chars "<a" ++ w1 ++ a ++ w2 ++ chars "href" ++ w3a ++ chars "=" ++
          w3b ++ q :: v ++ q :: w4 ++ chars ">") false).map Link.url
        = [pyStrip v]) := by
  constructor
  · intro e html unique l hl
    unfold LinkExtractor.extract_from_html_code at hl
    by_cases hn : html = []
    · rw [if_pos hn] at hl; cases hl
    · rw [if_neg hn] at hl
      have hstr : ∀ x ∈ (findAll (html.length + 1) html).map pyStrip,
          pyStrip x = x := by
        intro x hx
        obtain ⟨y, -, rfl⟩ := List.mem_map.mp hx
        exact pyStrip_idem y
      obtain ⟨u, hu, rfl⟩ := List.mem_map.mp hl
      have hus : pyStrip u = u := by
        cases unique with
        | false => exact hstr u (by simpa using hu)
        | true =>
          refine hstr u ?_
          have := (by simpa using hu :
            u ∈ ((findAll (html.length + 1) html).map pyStrip).dedup)
          exact List.mem_dedup.mp this
      show pyStrip u = pyStrip (pyStrip u)
      rw [pyStrip_idem]
  · intro e w1 a w2 w3a w3b w4 v q h1 h1n ha han h2 h2n h3a h3b h4 hv hq
    have hshape : chars "<a" ++ w1 ++ a ++ w2 ++ chars "href" ++ w3a ++
        chars "=" ++ w3b ++ q :: v ++ q :: w4 ++ chars ">" =
        '<' :: 'a' :: (w1 ++ (a ++ (w2 ++ (chars "href" ++
          (w3a ++ '=' :: (w3b ++ q :: (v ++ q :: (w4 ++ ['>'])))))))) := by
      simp only [show chars "<a" = ['<', 'a'] from rfl,
        show chars "=" = ['='] from rfl, show chars ">" = ['>'] from rfl,
        List.cons_append, List.append_assoc, List.nil_append]
    rw [hshape]
    unfold LinkExtractor.extract_from_html_code
    rw [if_neg (by simp)]
    rw [findAll_cons_some (tryMatch_ws_tag h1 h1n ha han h2 h2n h3a h3b h4 hv hq)]
    rw [findAll_empty]
    simp [Link.make, pyStrip_idem]

/-- Witness for `claim_C9` part 2 at a concrete tag with a newline after
`<a`, an attribute `rel=next`, whitespace around `=`, a tab, a value with
surrounding spaces, and a newline before `>`. -/
theorem claim_C9_witness :
    ((LinkExtractor.make none).extract_from_html_code
      (chars "<a\nrel=next href =\t\"  /x  \"\n>") false).map Link.url
      = [chars "/x"] := by
  have h := claim_C9.2 (LinkExtractor.make none) (chars "\n")
    (chars "rel=next") (chars " ") (chars " ") (chars "\t") (chars "\n")
    (chars "  /x  ") '"' (by decide) (by decide) (by decide) (by decide)
    (by decide) (by decide) (by decide) (by decide) (by decide) (by decide)
    (by decide)
  rw [show chars "<a" ++ chars "\n" ++ chars "rel=next" ++ chars " " ++
      chars "href" ++ chars " " ++ chars "=" ++ chars "\t" ++
      '"' :: chars "  /x  " ++ '"' :: chars "\n" ++ chars ">" =
    chars "<a\nrel=next href =\t\"  /x  \"\n>" from by decide] at h
  rw [show pyStrip (chars "  /x  ") = chars "/x" from by decide] at h
  exact h

/-- Unfolding of extraction on nonempty input, `unique = true`. -/
theorem extract_true_eq (e : LinkExtractor) {html : List Char}
    (hn : html ≠ []) :
    e.extract_from_html_code html true =
      (((findAll (html.length + 1) html).map pyStrip).dedup).map
        (fun u => Link.make u e.base_url) := by
  unfold LinkExtractor.extract_from_html_code
  rw [if_neg hn]
  rfl

/-- Unfolding of extraction on nonempty input, `unique = false`. -/
theorem extract_false_eq (e : LinkExtractor) {html : List Char}
    (hn : html ≠ []) :
    e.extract_from_html_code html false =
      ((findAll (html.length + 1) html).map pyStrip).map
        (fun u => Link.make u e.base_url) := by
  unfold LinkExtractor.extract_from_html_code
  rw [if_neg hn]
  rfl

/-- **C7** (dedup law): for every HTML text and extractor, writing `u` for
the raw values extracted with `unique=true` and `n` for those with
`unique=false`: every element of `u` occurs in `n`, `u` has no repeated
values, every distinct value of `n` occurs in `u`, and as multisets `u` is
contained in `n` (counts never exceed).  All four properties are invariant
under permutation, so they are independent of the unspecified iteration
order of the Python `set`. -/
theorem claim_C7 (e : LinkExtractor) (html : List Char) :
    (∀ x ∈ (e.extract_from_html_code html true).map Link.url,
      x ∈ (e.extract_from_html_code html false).map Link.url) ∧
    ((e.extract_from_html_code html true).map Link.url).Nodup ∧
    (∀ x ∈ (e.extract_from_html_code html false).map Link.url,
      x ∈ (e.extract_from_html_code html true).map Link.url) ∧
    (∀ x, ((e.extract_from_html_code html true).map Link.url).count x ≤
      ((e.extract_from_html_code html false).map Link.url).count x) := by
  by_cases hn : html = []
  · subst hn
    simp [LinkExtractor.extract_from_html_code]
  · rw [extract_true_eq e hn, extract_false_eq e hn]
    set A := (findAll (html.length + 1) html).map pyStrip with hA
    have hstr : ∀ x ∈ A, pyStrip x = x := by
      intro x hx
      obtain ⟨y, -, rfl⟩ := List.mem_map.mp hx
      exact pyStrip_idem y
    have hstrD : ∀ x ∈ A.dedup, pyStrip x = x := fun x hx =>
      hstr x (List.mem_dedup.mp hx)
    have hmapD : (A.dedup.map (fun u => Link.make u e.base_url)).map Link.url
        = A.dedup := by
      rw [List.map_map]
      have : ∀ x ∈ A.dedup,
          (Link.url ∘ fun u => Link.make u e.base_url) x = pyStrip x := by
        intro x _; rfl
      rw [List.map_congr_left this, map_pyStrip_of_stripped hstrD]
    have hmapA : (A.map (fun u => Link.make u e.base_url)).map Link.url = A := by
      rw [List.map_map]
      have : ∀ x ∈ A,
          (Link.url ∘ fun u => Link.make u e.base_url) x = pyStrip x := by
        intro x _; rfl
      rw [List.map_congr_left this, map_pyStrip_of_stripped hstr]
    rw [hmapD, hmapA]
    exact ⟨fun x hx => List.mem_dedup.mp hx, List.nodup_dedup A,
      fun x hx => List.mem_dedup.mpr hx,
      fun x => (List.dedup_sublist A).count_le x⟩

/-! Reduction lemmas for the `Except` monad used by the `Link` embedding. -/

theorem except_bind_ok {ε α β : Type} (a : α) (f : α → Except ε β) :
    (Except.ok a : Except ε α) >>= f = f a := rfl

theorem except_bind_error {ε α β : Type} (e : ε) (f : α → Except ε β) :
    (Except.error e : Except ε α) >>= f = Except.error e := rfl

/-! Symbolic evaluation of `urlsplit` on protocol-relative references. -/

theorem splitScheme_slash {X ds2 : List Char} :
    splitScheme ('/' :: X) ds2 = (ds2, '/' :: X) := by
  simp only [splitScheme]
  rw [if_neg (by
    intro hcond
    rw [Bool.and_eq_true, Bool.and_eq_true, Bool.and_eq_true] at hcond
    exact absurd hcond.1.2 (by decide))]

theorem splitNetloc_slashslash {X : List Char} :
    splitNetloc ('/' :: '/' :: X) =
      (X.takeWhile (fun c => ¬ (c = '/' ∨ c = '?' ∨ c = '#')),
       X.drop ((X.takeWhile (fun c => ¬ (c = '/' ∨ c = '?' ∨ c = '#'))).length)) := by
  unfold splitNetloc
  rw [if_pos (show (('/' : Char) :: '/' :: X).take 2 = chars "//" from rfl)]
  rfl

theorem urlsplit_slashslash {rest : List Char} (hnb : NoBrackets rest) :
    ∃ n p q f, urlsplit ('/' :: '/' :: rest) [] = .ok ⟨[], n, p, q, f⟩ := by
  simp only [urlsplit]
  rw [show ('/' :: '/' :: rest).dropWhile isC0OrSpace = '/' :: '/' :: rest from
    List.dropWhile_cons_of_neg (by decide)]
  rw [show removeUnsafe ('/' :: '/' :: rest) = '/' :: '/' :: removeUnsafe rest
    from by simp [removeUnsafe]]
  rw [show removeUnsafe (((([] : List Char).dropWhile
      isC0OrSpace).reverse.dropWhile isC0OrSpace).reverse) = [] from rfl]
  rw [splitScheme_slash, splitNetloc_slashslash]
  have hN : (removeUnsafe rest).takeWhile
      (fun c => ¬ (c = '/' ∨ c = '?' ∨ c = '#')) ⊆ rest := fun c hc =>
    List.mem_of_mem_filter ((List.takeWhile_subset _) hc)
  have hl : '[' ∉ (removeUnsafe rest).takeWhile
      (fun c => ¬ (c = '/' ∨ c = '?' ∨ c = '#')) := fun hc =>
    (hnb '[' (hN hc)).1 rfl
  have hr : ']' ∉ (removeUnsafe rest).takeWhile
      (fun c => ¬ (c = '/' ∨ c = '?' ∨ c = '#')) := fun hc =>
    (hnb ']' (hN hc)).2 rfl
  rw [if_neg (by
    rintro (⟨h1, -⟩ | ⟨h1, -⟩)
    · exact hl h1
    · exact hr h1)]
  rw [if_neg hl]
  exact ⟨_, _, _, _, rfl⟩

theorem urlparse_slashslash {rest : List Char} (hnb : NoBrackets rest) :
    ∃ r, urlparse ('/' :: '/' :: rest) [] = .ok r ∧ r.scheme = [] := by
  obtain ⟨n, p, q, f, hsp⟩ := urlsplit_slashslash hnb
  unfold urlparse
  rw [hsp, except_bind_ok]
  exact ⟨_, rfl, rfl⟩

theorem pyStrip_subset (l : List Char) : pyStrip l ⊆ l := by
  intro c hc
  unfold pyStrip pyRstrip pyLstrip at hc
  have h1 := List.mem_reverse.mp hc
  have h2 := (List.dropWhile_subset _) h1
  have h3 := List.mem_reverse.mp h2
  exact (List.dropWhile_subset _) h3

theorem is_absolute_false_of_slashslash (url : List Char)
    (base : Option (List Char)) (rest : List Char)
    (hrest : pyStrip url = '/' :: '/' :: rest) (hnb : NoBrackets url) :
    (Link.make url base).is_absolute = .ok false := by
  have hnbr : NoBrackets rest := by
    intro c hc
    exact hnb c (pyStrip_subset url (hrest ▸ List.mem_cons_of_mem '/'
      (List.mem_cons_of_mem '/' hc)))
  obtain ⟨r, hr, hsch⟩ := urlparse_slashslash hnbr
  unfold Link.is_absolute
  rw [show (Link.make url base).url = pyStrip url from rfl, hrest, hr,
    except_bind_ok, hsch]
  rfl

/-- **C1, amended**: `absolute` follows the three-step algorithm with the
joining step being Python `urljoin` semantics — RFC 3986 §5 relative
resolution (with `.`/`..` segment removal) for bases whose scheme urllib
classifies as hierarchical, but the raw string returned unresolved for other
base schemes (see `claim_C1_counterexample`): (1) when `is_absolute`
evaluates true, `absolute` is the trimmed raw string unchanged; (2) when it
evaluates false and no truthy base is stored, `absolute` is absent; (3) when
it evaluates false and a truthy base is stored, `absolute` is
`urljoin(base, raw)`; and (4) on a concrete hierarchical base, `urljoin`
agrees with the spec-modelled RFC 3986 resolution, including `..` removal. -/
theorem claim_C1 (url : List Char) (base : Option (List Char)) :
    ((Link.make url base).is_absolute = .ok true →
      (Link.make url base).absolute = .ok (some (Link.make url base).url)) ∧
    ((Link.make url base).is_absolute = .ok false →
      ((Link.make url base).base_url = none ∨
       (Link.make url base).base_url = some []) →
      (Link.make url base).absolute = .ok none) ∧
    (∀ b, (Link.make url base).is_absolute = .ok false →
      (Link.make url base).base_url = some b → b ≠ [] →
      (Link.make url base).absolute =
        (urljoin b (Link.make url base).url).map some) ∧
    (urljoin (chars "https://example.com/a/b") (chars "../x") =
        .ok (chars "https://example.com/x") ∧
     rfc3986_resolve (chars "https://example.com/a/b") (chars "../x") =
        chars "https://example.com/x") := by
  refine ⟨?_, ?_, ?_, ⟨rfl, rfl⟩⟩
  · intro h
    unfold Link.absolute
    rw [h, except_bind_ok]
    rfl
  · intro h hb
    unfold Link.absolute
    rw [h, except_bind_ok]
    rcases hb with hb | hb <;> rw [hb] <;> rfl
  · intro b h hb hbne
    unfold Link.absolute
    rw [h, except_bind_ok, hb]
    obtain ⟨c, b', rfl⟩ : ∃ c b', b = c :: b' := by
      cases b with
      | nil => exact absurd rfl hbne
      | cons c b' => exact ⟨c, b', rfl⟩
    show (urljoin (c :: b') (Link.make url base).url >>= fun r => pure (some r))
      = (urljoin (c :: b') (Link.make url base).url).map some
    cases urljoin (c :: b') (Link.make url base).url with
    | ok r => rfl
    | error e => rfl

/-- Witness for `claim_C1` (third branch) at raw `/rel` and base
`https://example.com`. -/
theorem claim_C1_witness :
    (Link.make (chars "/rel") (some (chars "https://example.com"))).absolute
      = .ok (some (chars "https://example.com/rel")) := by
  have h := (claim_C1 (chars "/rel") (some (chars "https://example.com"))).2.2.1
    (chars "https://example.com") rfl rfl (by decide)
  rw [h]
  rfl

/-- **C5, amended**: a protocol-relative reference is never absolute: for
every ASCII raw string whose stripped form begins with `//` (and contains no
square bracket — a bracketed authority would instead raise `ValueError`, and
a non-ASCII authority can be rejected by the NFKC netloc check that the
`AsciiOnly` hypothesis covers), `is_absolute` is false, whatever the base.
When the base's scheme is hierarchical the reference inherits it:
concretely, raw `//evil.com/x` with base `https://example.com` gives
`is_absolute = false`, `absolute = "https://evil.com/x"` and
`domain = "evil.com"`; but with base `mailto:user@example.com` the reference
is returned unresolved (see `claim_C5_counterexample`). -/
theorem claim_C5 :
    (∀ (url : List Char) (base : Option (List Char)) (rest : List Char),
      pyStrip url = '/' :: '/' :: rest → NoBrackets url → AsciiOnly url →
      (Link.make url base).is_absolute = .ok false) ∧
    ((Link.make (chars "//evil.com/x") (some (chars "https://example.com"))).is_absolute
        = .ok false ∧
     (Link.make (chars "//evil.com/x") (some (chars "https://example.com"))).absolute
        = .ok (some (chars "https://evil.com/x")) ∧
     (Link.make (chars "//evil.com/x") (some (chars "https://example.com"))).domain
        = .ok (some (chars "evil.com"))) ∧
    (Link.make (chars "//evil.com/x") (some (chars "mailto:user@example.com"))).absolute
        = .ok (some (chars "//evil.com/x")) := by
  refine ⟨?_, ⟨rfl, rfl, rfl⟩, rfl⟩
  intro url base rest hrest hnb _hao
  exact is_absolute_false_of_slashslash url base rest hrest hnb

/-- Witness for `claim_C5` (universal part) at raw `//evil.com/x`. -/
theorem claim_C5_witness :
    (Link.make (chars "//evil.com/x") none).is_absolute = .ok false :=
  claim_C5.1 (chars "//evil.com/x") none (chars "evil.com/x") (by decide)
    (by decide) (by decide)

/-! Bracket-freeness toolbox, towards the totality theorem for `Link`. -/

theorem NoBrackets.sub {l l' : List Char} (h : NoBrackets l) (hsub : l' ⊆ l) :
    NoBrackets l' := fun c hc => h c (hsub hc)

theorem noBrackets_nil : NoBrackets [] := fun c hc =>
  absurd hc (List.not_mem_nil c)

theorem NoBrackets.cons {c : Char} {l : List Char} (h1 : c ≠ '[') (h2 : c ≠ ']')
    (h : NoBrackets l) : NoBrackets (c :: l) := by
  intro d hd
  rcases List.mem_cons.mp hd with rfl | hd
  · exact ⟨h1, h2⟩
  · exact h d hd

theorem NoBrackets.append {a b : List Char} (ha : NoBrackets a)
    (hb : NoBrackets b) : NoBrackets (a ++ b) := by
  intro c hc
  rcases List.mem_append.mp hc with hc | hc
  · exact ha c hc
  · exact hb c hc

theorem NoBrackets.ite {c : Prop} [Decidable c] {a b : List Char}
    (ha : NoBrackets a) (hb : NoBrackets b) :
    NoBrackets (if c then a else b) := by
  split <;> assumption

/-! Subset facts about the `urlsplit` steps. -/

theorem removeUnsafe_subset (l : List Char) : removeUnsafe l ⊆ l :=
  fun _ hc => List.mem_of_mem_filter hc

theorem splitScheme_snd_subset (a b : List Char) : (splitScheme a b).2 ⊆ a := by
  simp only [splitScheme]
  repeat' split
  all_goals
    first
      | exact fun c hc => (List.drop_subset _ _) (List.tail_subset _ hc)
      | exact fun c hc => hc

theorem splitNetloc_fst_subset (a : List Char) : (splitNetloc a).1 ⊆ a := by
  unfold splitNetloc
  split
  · exact fun c hc => (List.drop_subset _ _) ((List.takeWhile_subset _) hc)
  · exact fun c hc => absurd hc (List.not_mem_nil c)

theorem splitNetloc_snd_subset (a : List Char) : (splitNetloc a).2 ⊆ a := by
  unfold splitNetloc
  split
  · exact fun c hc => (List.drop_subset _ _) ((List.drop_subset _ _) hc)
  · exact fun c hc => hc

/-- ASCII lower-casing keeps bracket-freeness: an uppercase letter maps into
the lowercase range, every other character is unchanged. -/
theorem toNat_ofNat_small {n : Nat} (h : n < 55296) : (Char.ofNat n).toNat = n := by
  have hv : Nat.isValidChar n := Or.inl h
  simp [Char.ofNat, hv, Char.toNat, Char.ofNatAux, UInt32.toNat]

theorem lowerAscii_ne_bracket {c : Char} (h1 : c ≠ '[') (h2 : c ≠ ']') :
    lowerAscii c ≠ '[' ∧ lowerAscii c ≠ ']' := by
  unfold lowerAscii
  split
  · rename_i hup
    obtain ⟨ha, hb⟩ := hup
    rw [Char.le_def] at ha hb
    have ha2 : 65 ≤ c.toNat := ha
    have hb2 : c.toNat ≤ 90 := hb
    have ht : (Char.ofNat (c.toNat + 32)).toNat = c.toNat + 32 :=
      toNat_ofNat_small (by omega)
    refine ⟨fun he => ?_, fun he => ?_⟩
    · rw [he] at ht
      have h91 : (91 : Nat) = c.toNat + 32 := ht
      omega
    · rw [he] at ht
      have h93 : (93 : Nat) = c.toNat + 32 := ht
      omega
  · exact ⟨h1, h2⟩

theorem NoBrackets.map_lower {l : List Char} (h : NoBrackets l) :
    NoBrackets (l.map lowerAscii) := by
  intro c hc
  obtain ⟨d, hd, rfl⟩ := List.mem_map.mp hc
  exact lowerAscii_ne_bracket (h d hd).1 (h d hd).2

theorem splitScheme_fst_NB {a b : List Char} (ha : NoBrackets a)
    (hb : NoBrackets b) : NoBrackets (splitScheme a b).1 := by
  simp only [splitScheme]
  repeat' split
  all_goals
    first
      | exact (ha.sub (List.takeWhile_subset _)).map_lower
      | exact hb

/-- On bracket-free inputs `urlsplit` succeeds, with every component
bracket-free. -/
theorem urlsplit_ok {u d : List Char} (hnb : NoBrackets u) (hd : NoBrackets d) :
    ∃ r, urlsplit u d = .ok r ∧ NoBrackets r.scheme ∧ NoBrackets r.netloc ∧
      NoBrackets r.path ∧ NoBrackets r.query ∧ NoBrackets r.fragment := by
  simp only [urlsplit]
  have hu2 : removeUnsafe (u.dropWhile isC0OrSpace) ⊆ u :=
    fun c hc => (List.dropWhile_subset _) (removeUnsafe_subset _ hc)
  have hd2 : removeUnsafe (((d.dropWhile isC0OrSpace).reverse.dropWhile
      isC0OrSpace).reverse) ⊆ d := by
    intro c hc
    have h3 := removeUnsafe_subset _ hc
    have h4 := (List.dropWhile_subset _) (List.mem_reverse.mp h3)
    exact (List.dropWhile_subset _) (List.mem_reverse.mp h4)
  have hsp2 : (splitScheme (removeUnsafe (u.dropWhile isC0OrSpace))
      (removeUnsafe (((d.dropWhile isC0OrSpace).reverse.dropWhile
        isC0OrSpace).reverse))).2 ⊆ u :=
    fun c hc => hu2 (splitScheme_snd_subset _ _ hc)
  have hnet : NoBrackets (splitNetloc (splitScheme
      (removeUnsafe (u.dropWhile isC0OrSpace))
      (removeUnsafe (((d.dropWhile isC0OrSpace).reverse.dropWhile
        isC0OrSpace).reverse))).2).1 :=
    hnb.sub (fun c hc => hsp2 (splitNetloc_fst_subset _ hc))
  have hrest : (splitNetloc (splitScheme
      (removeUnsafe (u.dropWhile isC0OrSpace))
      (removeUnsafe (((d.dropWhile isC0OrSpace).reverse.dropWhile
        isC0OrSpace).reverse))).2).2 ⊆ u :=
    fun c hc => hsp2 (splitNetloc_snd_subset _ hc)
  rw [if_neg (by
    rintro (⟨h1, -⟩ | ⟨h1, -⟩)
    · exact (hnet '[' h1).1 rfl
    · exact (hnet ']' h1).2 rfl)]
  rw [if_neg (fun h1 => (hnet '[' h1).1 rfl)]
  refine ⟨_, rfl, splitScheme_fst_NB (hnb.sub hu2) (hd.sub hd2), hnet,
    ?_, ?_, ?_⟩
  · exact hnb.sub (fun c hc =>
      hrest ((List.takeWhile_subset _) ((List.takeWhile_subset _) hc)))
  · exact hnb.sub (fun c hc =>
      hrest ((List.takeWhile_subset _)
        ((List.drop_subset _ _) (List.tail_subset _ hc))))
  · exact hnb.sub (fun c hc =>
      hrest ((List.drop_subset _ _) (List.tail_subset _ hc)))

/-- `_splitparams` components are made of characters of the input. -/
theorem splitparams_subset (u : List Char) :
    (splitparams u).1 ⊆ u ∧ (splitparams u).2 ⊆ u := by
  have htail : (u.reverse.takeWhile (fun c => c ≠ '/')).reverse ⊆ u := by
    intro c hc
    exact List.mem_reverse.mp
      ((List.takeWhile_subset _) (List.mem_reverse.mp hc))
  simp only [splitparams]
  split
  · split
    · exact ⟨fun c hc => hc, fun c hc => absurd hc (List.not_mem_nil c)⟩
    · rename_i x rest heq
      refine ⟨fun c hc => ?_, fun c hc => ?_⟩
      · rcases List.mem_append.mp hc with hc | hc
        · exact (List.take_subset _ _) hc
        · exact htail ((List.takeWhile_subset _) hc)
      · have hmem : c ∈ (u.reverse.takeWhile (fun c => c ≠ '/')).reverse.drop
            (((u.reverse.takeWhile (fun c => c ≠ '/')).reverse.takeWhile
              (fun c => c ≠ ';')).length) := heq ▸ List.mem_cons_of_mem x hc
        exact htail ((List.drop_subset _ _) hmem)
  · split
    · exact ⟨fun c hc => hc, fun c hc => absurd hc (List.not_mem_nil c)⟩
    · rename_i x rest heq
      refine ⟨fun c hc => (List.takeWhile_subset _) hc, fun c hc => ?_⟩
      have hmem : c ∈ u.drop ((u.takeWhile (fun c => c ≠ ';')).length) :=
        heq ▸ List.mem_cons_of_mem x hc
      exact (List.drop_subset _ _) hmem

/-- On bracket-free inputs `urlparse` succeeds, with every component
bracket-free. -/
theorem urlparse_ok {u d : List Char} (hnb : NoBrackets u) (hd : NoBrackets d) :
    ∃ r, urlparse u d = .ok r ∧ NoBrackets r.scheme ∧ NoBrackets r.netloc ∧
      NoBrackets r.path ∧ NoBrackets r.params ∧ NoBrackets r.query ∧
      NoBrackets r.fragment := by
  obtain ⟨r0, hr0, hs, hn, hp, hq, hf⟩ := urlsplit_ok hnb hd
  unfold urlparse
  rw [hr0, except_bind_ok]
  by_cases hc : r0.scheme ∈ uses_params ∧ ';' ∈ r0.path
  · rw [if_pos hc]
    have h1 : NoBrackets (splitparams r0.path).1 :=
      hp.sub (splitparams_subset r0.path).1
    have h2 : NoBrackets (splitparams r0.path).2 :=
      hp.sub (splitparams_subset r0.path).2
    cases hsp : splitparams r0.path with
    | mk pa pb =>
      rw [hsp] at h1 h2
      exact ⟨_, rfl, hs, hn, h1, h2, hq, hf⟩
  · rw [if_neg hc]
    exact ⟨_, rfl, hs, hn, hp, noBrackets_nil, hq, hf⟩

/-! Bracket-freeness of the un-parsers and of `urljoin`. -/

theorem urlunsplit_NB {r : SplitResult} (hs : NoBrackets r.scheme)
    (hn : NoBrackets r.netloc) (hp : NoBrackets r.path)
    (hq : NoBrackets r.query) (hf : NoBrackets r.fragment) :
    NoBrackets (urlunsplit r) := by
  simp only [urlunsplit]
  repeat'
    first
      | exact hs
      | exact hn
      | exact hp
      | exact hq
      | exact hf
      | exact noBrackets_nil
      | apply NoBrackets.ite
      | apply NoBrackets.append
      | refine NoBrackets.cons (by decide) (by decide) ?_

theorem urlunparse_NB {r : ParseResult} (hs : NoBrackets r.scheme)
    (hn : NoBrackets r.netloc) (hp : NoBrackets r.path)
    (hpar : NoBrackets r.params) (hq : NoBrackets r.query)
    (hf : NoBrackets r.fragment) : NoBrackets (urlunparse r) := by
  simp only [urlunparse]
  exact urlunsplit_NB hs hn
    (NoBrackets.ite (hp.append (NoBrackets.cons (by decide) (by decide) hpar))
      hp) hq hf

/-- Every piece produced by `str.split(sep)` is made of characters of the
input. -/
theorem pySplit_subset (sep : Char) (l : List Char) :
    ∀ p ∈ pySplit sep l, p ⊆ l := by
  induction l with
  | nil =>
    intro p hp
    simp only [pySplit, List.mem_singleton] at hp
    subst hp
    exact fun c hc => absurd hc (List.not_mem_nil c)
  | cons c cs ih =>
    intro p hp
    simp only [pySplit] at hp
    split at hp
    · rcases List.mem_cons.mp hp with rfl | hp
      · exact fun d hd => absurd hd (List.not_mem_nil d)
      · exact fun d hd => List.mem_cons_of_mem c (ih p hp hd)
    · split at hp
      · rw [List.mem_singleton] at hp
        subst hp
        intro d hd
        rw [List.mem_singleton] at hd
        subst hd
        exact List.mem_cons_self d cs
      · rename_i q qs heq
        rcases List.mem_cons.mp hp with rfl | hp
        · intro d hd
          rcases List.mem_cons.mp hd with rfl | hd
          · exact List.mem_cons_self d cs
          · have hq2 : q ∈ pySplit sep cs := heq ▸ List.mem_cons_self q qs
            exact List.mem_cons_of_mem c (ih q hq2 hd)
        · have hp2 : p ∈ pySplit sep cs := heq ▸ List.mem_cons_of_mem q hp
          exact fun d hd => List.mem_cons_of_mem c (ih p hp2 hd)

/-- `'/'.join` of bracket-free pieces is bracket-free. -/
theorem joinSlash_NB : ∀ ls : List (List Char),
    (∀ p ∈ ls, NoBrackets p) → NoBrackets (joinSlash ls)
  | [], _ => noBrackets_nil
  | [x], h => h x (List.mem_singleton.mpr rfl)
  | x :: y :: xs, h =>
    (h x (List.mem_cons_self _ _)).append
      (NoBrackets.cons (by decide) (by decide)
        (joinSlash_NB (y :: xs) (fun p hp => h p (List.mem_cons_of_mem x hp))))

/-- The middle filter keeps only elements of the input list. -/
theorem filtKeepLast_mem : ∀ ls : List (List Char),
    ∀ p ∈ filtKeepLast ls, p ∈ ls
  | [], p, hp => absurd hp (List.not_mem_nil p)
  | [x], p, hp => hp
  | x :: y :: xs, p, hp => by
    have hp2 : p ∈ (if x = [] then filtKeepLast (y :: xs)
        else x :: filtKeepLast (y :: xs)) := hp
    clear hp
    rename' hp2 => hp
    split at hp
    · exact List.mem_cons_of_mem x (filtKeepLast_mem (y :: xs) p hp)
    · rcases List.mem_cons.mp hp with rfl | hp
      · exact List.mem_cons_self p (y :: xs)
      · exact List.mem_cons_of_mem x (filtKeepLast_mem (y :: xs) p hp)

theorem filtKeepFirstLast_mem (ls : List (List Char)) :
    ∀ p ∈ filtKeepFirstLast ls, p ∈ ls := by
  cases ls with
  | nil => exact fun p hp => absurd hp (List.not_mem_nil p)
  | cons a rest =>
    intro p hp
    rcases List.mem_cons.mp hp with rfl | hp
    · exact List.mem_cons_self p rest
    · exact List.mem_cons_of_mem a (filtKeepLast_mem rest p hp)

/-- One step of the `.`/`..` segment resolution only keeps old elements or
adds the new segment. -/
theorem resolveStep_mem {acc : List (List Char)} {s p : List Char}
    (hp : p ∈ (if s = chars ".." then acc.dropLast
      else if s = chars "." then acc else acc ++ [s])) :
    p ∈ acc ∨ p = s := by
  split at hp
  · exact Or.inl (List.dropLast_subset _ hp)
  · split at hp
    · exact Or.inl hp
    · rcases List.mem_append.mp hp with hp | hp
      · exact Or.inl hp
      · exact Or.inr (List.mem_singleton.mp hp)

/-- Every element of the folded segment resolution comes from the initial
accumulator or from the segment list. -/
theorem resolveFold_mem : ∀ (segs acc : List (List Char)),
    ∀ p ∈ segs.foldl (fun acc seg =>
        if seg = chars ".." then acc.dropLast
        else if seg = chars "." then acc
        else acc ++ [seg]) acc,
    p ∈ acc ∨ p ∈ segs := by
  intro segs
  induction segs with
  | nil => exact fun acc p hp => Or.inl hp
  | cons s ss ih =>
    intro acc p hp
    rw [List.foldl_cons] at hp
    rcases ih _ p hp with h | h
    · rcases resolveStep_mem h with h | rfl
      · exact Or.inl h
      · exact Or.inr (List.mem_cons_self _ _)
    · exact Or.inr (List.mem_cons_of_mem s h)

/-- The post-processed resolution list (possibly with an empty segment
appended) has only bracket-free elements. -/
theorem resolved_NB (segs : List (List Char)) (h : ∀ p ∈ segs, NoBrackets p) :
    ∀ p ∈ (if segs.getLastD [] = chars "." ∨ segs.getLastD [] = chars ".."
      then (segs.foldl (fun acc seg =>
        if seg = chars ".." then acc.dropLast
        else if seg = chars "." then acc
        else acc ++ [seg]) []) ++ [[]]
      else segs.foldl (fun acc seg =>
        if seg = chars ".." then acc.dropLast
        else if seg = chars "." then acc
        else acc ++ [seg]) []),
    NoBrackets p := by
  have hfold : ∀ q ∈ segs.foldl (fun acc seg =>
      if seg = chars ".." then acc.dropLast
      else if seg = chars "." then acc
      else acc ++ [seg]) [], NoBrackets q := by
    intro q hq
    rcases resolveFold_mem segs [] q hq with h0 | h0
    · exact absurd h0 (List.not_mem_nil q)
    · exact h q h0
  intro p hp
  split at hp
  · rcases List.mem_append.mp hp with hp | hp
    · exact hfold p hp
    · rw [List.mem_singleton] at hp
      subst hp
      exact noBrackets_nil
  · exact hfold p hp

/-- The segment list built by `urljoin` has only bracket-free elements when
both paths are bracket-free. -/
theorem segments_NB (bpath rpath : List Char) (hb : NoBrackets bpath)
    (hr : NoBrackets rpath) :
    ∀ p ∈ (if rpath.take 1 = chars "/" then pySplit '/' rpath
      else filtKeepFirstLast ((if (pySplit '/' bpath).getLastD [] ≠ []
        then (pySplit '/' bpath).dropLast else pySplit '/' bpath)
        ++ pySplit '/' rpath)), NoBrackets p := by
  intro p hp
  split at hp
  · exact hr.sub (pySplit_subset '/' rpath p hp)
  · have hp2 := filtKeepFirstLast_mem _ p hp
    rcases List.mem_append.mp hp2 with hp3 | hp3
    · have hp4 : p ∈ pySplit '/' bpath := by
        revert hp3
        split
        · exact fun hp3 => List.dropLast_subset _ hp3
        · exact fun hp3 => hp3
      exact hb.sub (pySplit_subset '/' bpath p hp4)
    · exact hr.sub (pySplit_subset '/' rpath p hp3)

/-- On bracket-free inputs `urljoin` succeeds and its result is
bracket-free. -/
theorem urljoin_ok {base url : List Char} (hb : NoBrackets base)
    (hu : NoBrackets url) :
    ∃ res, urljoin base url = .ok res ∧ NoBrackets res := by
  unfold urljoin
  by_cases h1 : base = []
  · rw [if_pos h1]
    exact ⟨url, rfl, hu⟩
  · rw [if_neg h1]
    by_cases h2 : url = []
    · rw [if_pos h2]
      exact ⟨base, rfl, hb⟩
    · rw [if_neg h2]
      obtain ⟨bp, hbp, hbs, hbn, hbpa, hbpar, hbq, hbf⟩ :=
        urlparse_ok hb noBrackets_nil
      rw [hbp, except_bind_ok]
      obtain ⟨rp, hrp, hrs, hrn, hrpa, hrpar, hrq, hrf⟩ :=
        urlparse_ok hu hbs
      rw [hrp, except_bind_ok]
      by_cases h3 : rp.scheme ≠ bp.scheme ∨ rp.scheme ∉ uses_relative
      · rw [if_pos h3]
        exact ⟨url, rfl, hu⟩
      · rw [if_neg h3]
        by_cases h4 : rp.scheme ∈ uses_netloc ∧ rp.netloc ≠ []
        · rw [if_pos h4]
          exact ⟨_, rfl, urlunparse_NB hrs hrn hrpa hrpar hrq hrf⟩
        · rw [if_neg h4]
          have hnet : NoBrackets
              (if rp.scheme ∈ uses_netloc then bp.netloc else rp.netloc) :=
            NoBrackets.ite hbn hrn
          by_cases h5 : rp.path = [] ∧ rp.params = []
          · rw [if_pos h5]
            exact ⟨_, rfl, urlunparse_NB hrs hnet hbpa hbpar
              (NoBrackets.ite hbq hrq) hrf⟩
          · rw [if_neg h5]
            refine ⟨_, rfl, ?_⟩
            refine urlunparse_NB hrs hnet ?_ hrpar hrq hrf
            refine NoBrackets.ite (by decide) (joinSlash_NB _ ?_)
            exact resolved_NB _ (segments_NB bp.path rp.path hbpa hrpa)

/-! Totality of the `Link` pipeline on bracket-free input. -/

theorem link_is_absolute_ok {l : Link} (hu : NoBrackets l.url) :
    ∃ b, l.is_absolute = .ok b := by
  obtain ⟨p, hp, -, -, -, -, -, -⟩ := urlparse_ok hu noBrackets_nil
  simp only [Link.is_absolute]
  rw [hp, except_bind_ok]
  exact ⟨_, rfl⟩

theorem link_absolute_ok {l : Link} (hu : NoBrackets l.url)
    (hb : ∀ b, l.base_url = some b → NoBrackets b) :
    ∃ o, l.absolute = .ok o ∧ ∀ s, o = some s → NoBrackets s := by
  obtain ⟨p, hp, -, -, -, -, -, -⟩ := urlparse_ok hu noBrackets_nil
  have hia : l.is_absolute = .ok (!p.scheme.isEmpty) := by
    simp only [Link.is_absolute]
    rw [hp, except_bind_ok]
    rfl
  simp only [Link.absolute]
  rw [hia, except_bind_ok]
  by_cases hcond : (!p.scheme.isEmpty) = true
  · rw [if_pos hcond]
    exact ⟨some l.url, rfl, fun s hs => by cases hs; exact hu⟩
  · rw [if_neg hcond]
    cases hbu : l.base_url with
    | none => exact ⟨none, rfl, fun s hs => by cases hs⟩
    | some b =>
      suffices h : ∃ o, (if b = []
          then (pure none : Except PyErr (Option (List Char)))
          else do
            let j ← urljoin b l.url
            pure (some j)) = Except.ok o ∧
          ∀ s, o = some s → NoBrackets s by
        exact h
      by_cases hbe : b = []
      · rw [if_pos hbe]
        exact ⟨none, rfl, fun s hs => by cases hs⟩
      · rw [if_neg hbe]
        obtain ⟨res, hres, hresNB⟩ := urljoin_ok (hb b hbu) hu
        rw [hres, except_bind_ok]
        exact ⟨some res, rfl, fun s hs => by cases hs; exact hresNB⟩

theorem link_parsedTarget_ok {l : Link} (hu : NoBrackets l.url)
    (hb : ∀ b, l.base_url = some b → NoBrackets b) :
    ∃ t, l.parsedTarget = .ok t ∧ NoBrackets t := by
  obtain ⟨o, ho, hoNB⟩ := link_absolute_ok hu hb
  simp only [Link.parsedTarget]
  rw [ho, except_bind_ok]
  cases o with
  | some s => exact ⟨s, rfl, hoNB s rfl⟩
  | none => exact ⟨l.url, rfl, hu⟩

theorem link_parsed_ok {l : Link} (hu : NoBrackets l.url)
    (hb : ∀ b, l.base_url = some b → NoBrackets b) :
    ∃ r, l.parsed = .ok r := by
  obtain ⟨t, ht, htNB⟩ := link_parsedTarget_ok hu hb
  obtain ⟨r, hr, -, -, -, -, -, -⟩ := urlparse_ok htNB noBrackets_nil
  simp only [Link.parsed]
  rw [ht, except_bind_ok]
  exact ⟨r, hr⟩

theorem link_scheme_ok {l : Link} (hu : NoBrackets l.url)
    (hb : ∀ b, l.base_url = some b → NoBrackets b) :
    ∃ o, l.scheme = .ok o := by
  obtain ⟨o, ho, -⟩ := link_absolute_ok hu hb
  obtain ⟨pr, hpr⟩ := link_parsed_ok hu hb
  simp only [Link.scheme]
  rw [ho, except_bind_ok]
  cases o with
  | none => exact ⟨none, rfl⟩
  | some s =>
    suffices h : ∃ o, (if s ≠ [] then do
          let pr2 ← l.parsed
          pure (some pr2.scheme)
        else (pure none : Except PyErr (Option (List Char)))) = Except.ok o by
      exact h
    by_cases hse : s ≠ []
    · rw [if_pos hse, hpr, except_bind_ok]
      exact ⟨_, rfl⟩
    · rw [if_neg hse]
      exact ⟨none, rfl⟩

theorem link_domain_ok {l : Link} (hu : NoBrackets l.url)
    (hb : ∀ b, l.base_url = some b → NoBrackets b) :
    ∃ o, l.domain = .ok o := by
  obtain ⟨o, ho, -⟩ := link_absolute_ok hu hb
  obtain ⟨pr, hpr⟩ := link_parsed_ok hu hb
  simp only [Link.domain]
  rw [ho, except_bind_ok]
  cases o with
  | none => exact ⟨none, rfl⟩
  | some s =>
    suffices h : ∃ o, (if s ≠ [] then do
          let pr2 ← l.parsed
          let d := pr2.netloc
          if d ≠ [] then pure (some (d.map lowerAscii))
          else (pure none : Except PyErr (Option (List Char)))
        else pure none) = Except.ok o by
      exact h
    by_cases hse : s ≠ []
    · rw [if_pos hse, hpr, except_bind_ok]
      suffices h2 : ∃ o, (if pr.netloc ≠ []
          then (pure (some (pr.netloc.map lowerAscii)) :
            Except PyErr (Option (List Char)))
          else pure none) = Except.ok o by
        exact h2
      by_cases hd : pr.netloc ≠ []
      · rw [if_pos hd]
        exact ⟨_, rfl⟩
      · rw [if_neg hd]
        exact ⟨none, rfl⟩
    · rw [if_neg hse]
      exact ⟨none, rfl⟩

theorem link_path_ok {l : Link} (hu : NoBrackets l.url)
    (hb : ∀ b, l.base_url = some b → NoBrackets b) :
    ∃ o, l.path = .ok o := by
  obtain ⟨o, ho, hoNB⟩ := link_absolute_ok hu hb
  simp only [Link.path]
  rw [ho, except_bind_ok]
  cases o with
  | none => exact ⟨none, rfl⟩
  | some s =>
    suffices h : ∃ o, (if s ≠ [] then do
          let r2 ← urlparse s []
          let p2 := r2.path
          if p2 ≠ [] then pure (some p2)
          else (pure none : Except PyErr (Option (List Char)))
        else pure none) = Except.ok o by
      exact h
    by_cases hse : s ≠ []
    · rw [if_pos hse]
      obtain ⟨r, hr, -, -, -, -, -, -⟩ := urlparse_ok (hoNB s rfl) noBrackets_nil
      rw [hr, except_bind_ok]
      suffices h2 : ∃ o, (if r.path ≠ []
          then (pure (some r.path) : Except PyErr (Option (List Char)))
          else pure none) = Except.ok o by
        exact h2
      by_cases hpe : r.path ≠ []
      · rw [if_pos hpe]
        exact ⟨_, rfl⟩
      · rw [if_neg hpe]
        exact ⟨none, rfl⟩
    · rw [if_neg hse]
      exact ⟨none, rfl⟩

theorem link_info_ok {l : Link} (hu : NoBrackets l.url)
    (hb : ∀ b, l.base_url = some b → NoBrackets b) :
    ∃ i, l.info = .ok i := by
  obtain ⟨o, ho, -⟩ := link_absolute_ok hu hb
  obtain ⟨ab, hab⟩ := link_is_absolute_ok hu
  obtain ⟨sc, hsc⟩ := link_scheme_ok hu hb
  obtain ⟨dm, hdm⟩ := link_domain_ok hu hb
  obtain ⟨pa, hpa⟩ := link_path_ok hu hb
  simp only [Link.info]
  rw [ho, except_bind_ok, hab, except_bind_ok, hsc, except_bind_ok,
    hdm, except_bind_ok, hpa, except_bind_ok]
  exact ⟨_, rfl⟩

/-- **C3, amended**: the `Link` component never fails except for the
`ValueError` raised by URL parsing on an authority containing a square
bracket; for every raw string and optional base that are ASCII and contain
no square bracket, construction and evaluation of all derived fields
(`is_absolute`, `absolute`, `scheme`, `domain`, `path`, `info`) complete
without exception, absence expressed through `none`.  (The original
unconditional claim is refuted by `claim_C3_counterexample`:
`Link("http://[").is_absolute` raises `ValueError("Invalid IPv6 URL")`.) -/
theorem claim_C3 (url : List Char) (base : Option (List Char))
    (hnb : NoBrackets url) (_hao : AsciiOnly url)
    (hbase : ∀ b, base = some b → NoBrackets b ∧ AsciiOnly b) :
    (∃ b2, (Link.make url base).is_absolute = .ok b2) ∧
    (∃ o, (Link.make url base).absolute = .ok o) ∧
    (∃ o, (Link.make url base).scheme = .ok o) ∧
    (∃ o, (Link.make url base).domain = .ok o) ∧
    (∃ o, (Link.make url base).path = .ok o) ∧
    (∃ i, (Link.make url base).info = .ok i) := by
  have hu : NoBrackets (Link.make url base).url :=
    hnb.sub (pyStrip_subset url)
  have hb : ∀ b, (Link.make url base).base_url = some b → NoBrackets b := by
    intro b hbeq
    cases base with
    | none => exact Option.noConfusion hbeq
    | some b0 =>
      have heq : (if b0 ≠ [] then some (pyStrip b0) else none) = some b := hbeq
      split at heq
      · cases heq
        exact (hbase b0 rfl).1.sub (pyStrip_subset b0)
      · exact Option.noConfusion heq
  refine ⟨link_is_absolute_ok hu, ?_, link_scheme_ok hu hb,
    link_domain_ok hu hb, link_path_ok hu hb, link_info_ok hu hb⟩
  obtain ⟨o, ho, -⟩ := link_absolute_ok hu hb
  exact ⟨o, ho⟩

/-- Witness for `claim_C3` at raw `/rel` with base `https://example.com`. -/
theorem claim_C3_witness :
    ∃ i, (Link.make (chars "/rel")
      (some (chars "https://example.com"))).info = .ok i :=
  (claim_C3 (chars "/rel") (some (chars "https://example.com"))
    (by decide) (by decide)
    (fun b hb => by
      injection hb with hb2
      subst hb2
      exact ⟨by decide, by decide⟩)).2.2.2.2.2
